import Mathlib

/-!
# katzien/crawler: the crawl engine and the page parser

A shallow embedding of `pkg/parser.go` and `pkg/crawler.go`.

* `URL` mirrors the fields of Go's `net/url.URL`; `URL.String` follows the
  layout of `(*URL).String`, with the percent-encoding of the components taken
  as a parameter (`Escaper`).
* `Parser.normalise`, `Parser.parse` embed `pkg/parser.go`.  The network and the
  HTML tokenizer are a parameter (`World`): one HTTP round trip is a function
  from the request URL to a `Response`, a body is a list of `Token`s.
* `Crawler.parsePage` embeds `pkg/crawler.go`.  The recursion is unbounded when
  `maxDepth = 0`, so it carries a fuel argument and returns `none` when the
  fuel runs out.  The crawler is run sequentially: `keepCrawling` is a field
  of the state, as in the tests of the package.
-/

namespace crawler

/-! ## URLs (`net/url`) -/

/-- The `Userinfo` of a URL: user name and optional password. -/
structure Userinfo where
  username : String
  password : String
  passwordSet : Bool
deriving DecidableEq, Repr

/-- The fields of Go's `net/url.URL`. -/
structure URL where
  Scheme : String := ""
  Opaque : String := ""
  User : Option Userinfo := none
  Host : String := ""
  Path : String := ""
  RawPath : String := ""
  OmitHost : Bool := false
  ForceQuery : Bool := false
  RawQuery : String := ""
  Fragment : String := ""
  RawFragment : String := ""
deriving DecidableEq, Repr

/-- The percent-encoding used by `(*URL).String`: `escape(host, encodeHost)`,
`(*Userinfo).String`, `(*URL).EscapedPath` (a function of `Path` and `RawPath`) and
`(*URL).EscapedFragment` (a function of `Fragment` and `RawFragment`). -/
structure Escaper where
  host : String → String
  user : Userinfo → String
  escapedPath : String → String → String
  escapedFragment : String → String → String

/-- The escaper on components made of unreserved characters and slashes, with
no `RawPath` and no `RawFragment`: there percent-encoding changes nothing. -/
def Escaper.unreserved : Escaper where
  host := fun h => h
  user := fun ui => if ui.passwordSet then ui.username ++ ":" ++ ui.password else ui.username
  escapedPath := fun path _ => path
  escapedFragment := fun frag _ => frag

/-- The authority part written by `(*URL).String`: `//`, the user information and the host. -/
def URL.authority (e : Escaper) (u : URL) : String :=
  if u.Scheme ≠ "" ∨ u.Host ≠ "" ∨ u.User.isSome then
    if u.OmitHost ∧ u.Host = "" ∧ u.User.isNone then ""
    else
      (if u.Host ≠ "" ∨ u.Path ≠ "" ∨ u.User.isSome then "//" else "")
        ++ (match u.User with
            | some ui => e.user ui ++ "@"
            | none => "")
        ++ (if u.Host ≠ "" then e.host u.Host else "")
  else ""

/-- The rendering `(*URL).String` of a URL:
`scheme:opaque?query#fragment` or `scheme://userinfo@host/path?query#fragment`. -/
def URL.String (e : Escaper) (u : URL) : String :=
  let scheme := if u.Scheme ≠ "" then u.Scheme ++ ":" else ""
  let hier :=
    if u.Opaque ≠ "" then u.Opaque
    else
      let auth := u.authority e
      let path := e.escapedPath u.Path u.RawPath
      let slash := if path ≠ "" ∧ path.data.head? ≠ some '/' ∧ u.Host ≠ "" then "/" else ""
      let dot :=
        if scheme ++ auth ++ slash = "" ∧ ':' ∈ path.data.takeWhile (fun c => c ≠ '/') then "./"
        else ""
      auth ++ slash ++ dot ++ path
  let query := if u.ForceQuery = true ∨ u.RawQuery ≠ "" then "?" ++ u.RawQuery else ""
  let frag := if u.Fragment ≠ "" then "#" ++ e.escapedFragment u.Fragment u.RawFragment else ""
  scheme ++ hier ++ query ++ frag

/-- Go's `strings.TrimRight(s, cutset)`: `s` without its trailing characters that occur
in `cutset`. -/
def TrimRight (s cutset : String) : String :=
  ⟨s.data.rdropWhile (fun c => cutset.data.contains c)⟩

/-! ## The parser (`pkg/parser.go`) -/

/-- `CanonicalURL`: the key type of the sitemap, a string. -/
abbrev CanonicalURL := String

/-- `Links`: the links found on a page. -/
abbrev Links := List String

/-- `Page`: the address of a page and the links found on it. -/
structure Page where
  Addr : CanonicalURL
  Links : Links
deriving DecidableEq, Repr

/-- `Parser`: the scheme and the host of the domain that is crawled. -/
structure Parser where
  domainScheme : String
  domainHost : String
deriving DecidableEq, Repr

/-- `NewParser(domainScheme, domainHost)`. -/
def NewParser (domainScheme domainHost : String) : Parser :=
  { domainScheme := domainScheme, domainHost := domainHost }

/-- `(*Parser).normalise`: fills in a missing host and scheme from the domain, trims the
trailing slashes of the path, and empties `RawQuery` and `Fragment`.  The Go method
updates the URL in place; here the updated URL is returned. -/
def Parser.normalise (p : Parser) (u : URL) : URL :=
  let u := if u.Host = "" then { u with Host := p.domainHost } else u
  let u := if u.Scheme = "" then { u with Scheme := p.domainScheme } else u
  let u := { u with Path := TrimRight u.Path "/" }
  let u := { u with RawQuery := "" }
  { u with Fragment := "" }

/-- The errors `parse` can return: the two package errors, a request URL that
`url.Parse` rejects, and any other failure of the HTTP round trip. -/
inductive Error where
  | ErrExternalDomain
  | ErrTooManyRedirects
  | invalidURL
  | transport
deriving DecidableEq, Repr

/-- The token types of `golang.org/x/net/html`. -/
inductive TokenType where
  | ErrorToken
  | TextToken
  | StartTagToken
  | EndTagToken
  | SelfClosingTagToken
  | CommentToken
  | DoctypeToken
deriving DecidableEq, Repr

/-- An `html.Attribute`. -/
structure Attribute where
  Namespace : String := ""
  Key : String
  Val : String
deriving DecidableEq, Repr

/-- An `html.Token`; `Typ` is the Go field `Type`. -/
structure Token where
  Typ : TokenType
  Data : String := ""
  Attr : List Attribute := []
deriving DecidableEq, Repr

/-- The answer to one HTTP request: a response that is not a redirect (its body as
the tokens `z.Next()` yields), a redirect with its resolved target, or a failure. -/
inductive Response where
  | page (body : List Token)
  | redirect (target : URL)
  | failure
deriving DecidableEq, Repr

/-- What `parse` takes from outside the package: the percent-encoding of `net/url`,
`url.Parse`, the answer of the network to a request, and the order in which `range`
walks the keys of a map (some permutation of them). -/
structure World where
  esc : Escaper
  urlParse : String → Option URL
  roundTrip : URL → Response
  rangeOrder : List String → List String
  rangeOrder_perm : ∀ keys, (rangeOrder keys).Perm keys

/-- The request loop of `client.Get` under the `CheckRedirect` of `parse`.  `req` is the
request to send, `via` the number of requests made already and `key` the closure
variable `key`.  On a redirect the policy is asked with the requests made so far, the
one just answered included: a target on another host fails, then ten requests made
fail, otherwise `key` becomes the rendering of the normalised target.  The loop is
written with fuel; ten rounds always suffice. -/
def Parser.clientDo (w : World) (p : Parser) :
    Nat → URL → Nat → CanonicalURL → Option (Except Error (List Token × CanonicalURL))
  | 0, _, _, _ => none
  | fuel + 1, req, via, key =>
    match w.roundTrip req with
    | .failure => some (.error .transport)
    | .page body => some (.ok (body, key))
    | .redirect target =>
      if target.Host ≠ p.domainHost then some (.error .ErrExternalDomain)
      else if via + 1 ≥ 10 then some (.error .ErrTooManyRedirects)
      else Parser.clientDo w p fuel target (via + 1) ((p.normalise target).String w.esc)

/-- The loop over the attributes of an anchor tag in `parse`; `mLinks` holds the keys of
the map `mLinks` in the order of their insertion.  An attribute that is not `href` is
passed over; a `href` that `url.Parse` rejects is passed over too (`continue`); the
first `href` that parses ends the loop (`break`), adding its normalised rendering when
host and scheme fit. -/
def Parser.anchor (w : World) (p : Parser) : List Attribute → List String → List String
  | [], mLinks => mLinks
  | a :: rest, mLinks =>
    if a.Key = "href" then
      match w.urlParse a.Val with
      | none => Parser.anchor w p rest mLinks
      | some l =>
        let l := p.normalise l
        if l.Host = p.domainHost ∧ (l.Scheme = "http" ∨ l.Scheme = "https") then
          let key := l.String w.esc
          if key ∈ mLinks then mLinks else mLinks ++ [key]
        else mLinks
    else Parser.anchor w p rest mLinks

/-- The tokenizer loop of `parse`: every start tag `a` goes through `Parser.anchor`,
every other token is passed over, and the first `ErrorToken` (or the end of the
input) ends the loop. -/
def Parser.tokens (w : World) (p : Parser) : List Token → List String → List String
  | [], mLinks => mLinks
  | t :: rest, mLinks =>
    match t.Typ with
    | .ErrorToken => mLinks
    | .StartTagToken =>
      if t.Data = "a" then Parser.tokens w p rest (Parser.anchor w p t.Attr mLinks)
      else Parser.tokens w p rest mLinks
    | _ => Parser.tokens w p rest mLinks

/-- `(*Parser).parse`: fetches `u`, following redirects, and collects the links of the
page.  `Addr` is the last value of `key`: `u` itself when there was no redirect. -/
def Parser.parse (w : World) (p : Parser) (u : String) : Except Error Page :=
  match w.urlParse u with
  | none => .error .invalidURL
  | some req =>
    match Parser.clientDo w p 10 req 0 u with
    | none => .error .transport
    | some (.error err) => .error err
    | some (.ok (body, key)) =>
      .ok { Addr := key, Links := w.rangeOrder (Parser.tokens w p body []) }

/-! ## The crawler (`pkg/crawler.go`) -/

/-- `Sitemap`: the map from a page to its links, as the list of its entries (one per
key, the latest first). -/
abbrev Sitemap := List (CanonicalURL × Links)

/-- The index expression `sitemap[u]` with its `ok` flag. -/
def Sitemap.index (s : Sitemap) (u : CanonicalURL) : Option Links :=
  (s.find? (fun e => e.1 = u)).map Prod.snd

/-- The assignment `sitemap[u] = links`: the entry of `u`, if any, is replaced. -/
def Sitemap.assign (s : Sitemap) (u : CanonicalURL) (links : Links) : Sitemap :=
  (u, links) :: s.filter (fun e => e.1 ≠ u)

/-- The keys of the sitemap. -/
def Sitemap.keys (s : Sitemap) : List CanonicalURL := s.map Prod.fst

/-- `Crawler`.  The mutex is left out (the crawler is run sequentially).  `parsed` is
not a field of the Go struct: it records, oldest first, the address and the level of
every call of `c.parser.parse`. -/
structure Crawler where
  startURL : String
  maxDepth : Int
  parser : Parser
  sitemap : Sitemap
  keepCrawling : Bool
  parsed : List (String × Int) := []
deriving DecidableEq, Repr

/-- `NewCrawler(start, depth)`. -/
def NewCrawler (e : Escaper) (start : URL) (depth : Int) : Crawler :=
  let p := NewParser start.Scheme start.Host
  let start := p.normalise start
  { startURL := start.String e
    maxDepth := depth
    parser := p
    sitemap := []
    keepCrawling := true }

/-- `(*Crawler).add`. -/
def Crawler.add (c : Crawler) (p : Page) : Crawler :=
  { c with sitemap := c.sitemap.assign p.Addr p.Links }

/-- `(*Crawler).known`. -/
def Crawler.known (c : Crawler) (u : CanonicalURL) : Bool :=
  (c.sitemap.index u).isSome

/-- The condition under which `parsePage` calls the parser. -/
def Crawler.proceeds (c : Crawler) (l : String) (lvl : Int) : Bool :=
  c.keepCrawling && (c.maxDepth == 0 || decide (lvl < c.maxDepth)) && !c.known l

/-- The record that `c.parser.parse(l)` is called at level `lvl`. -/
def Crawler.calling (c : Crawler) (l : String) (lvl : Int) : Crawler :=
  { c with parsed := c.parsed ++ [(l, lvl)] }

/-- The loop `for _, link := range page.Links` of `parsePage`, over the function
`visit` that stands for the recursive call. -/
def Crawler.rangeLinks (visit : Crawler → String → Int → Option Crawler) :
    List String → Int → Crawler → Option Crawler
  | [], _, c => some c
  | link :: rest, lvl, c =>
    if !c.known link then
      match visit c link lvl with
      | none => none
      | some c1 => Crawler.rangeLinks visit rest lvl c1
    else Crawler.rangeLinks visit rest lvl c

/-- `(*Crawler).parsePage` over the parser method `parse`, with fuel for the depth of
the recursion: `none` when the fuel runs out.  Levels are unbounded integers (a
level grows by one per nested call and stays far from the limits of `int`). -/
def Crawler.parsePage (parse : Parser → String → Except Error Page) :
    Nat → Crawler → String → Int → Option Crawler
  | 0, _, _, _ => none
  | fuel + 1, c, l, lvl =>
    if c.proceeds l lvl then
      match parse c.parser l with
      | .error _ => some (c.calling l lvl)
      | .ok page =>
        Crawler.rangeLinks (Crawler.parsePage parse fuel) page.Links (lvl + 1)
          ((c.calling l lvl).add page)
    else some c

/-! ## Vocabulary of the statements -/

/-- `LinkChain fetch a n b`: `b` is reached from `a` by a chain of `n` links, each one a
link of the page that `fetch` returns for the address before it. -/
inductive LinkChain (fetch : String → Except Error Page) : String → Nat → String → Prop
  | here (a : String) : LinkChain fetch a 0 a
  | next {a b c : String} {n : Nat} {page : Page} :
      LinkChain fetch a n b → fetch b = .ok page → c ∈ page.Links → LinkChain fetch a (n + 1) c

/-- The distinct addresses a crawl has discovered: the seed, the keys of the sitemap
and the links stored in it. -/
def Crawler.discovered (c : Crawler) : List String :=
  (c.startURL :: (c.sitemap.keys ++ c.sitemap.flatMap Prod.snd)).dedup

/-- Every parser call recorded so far that returned a page has that page's address
among the keys of the sitemap. -/
def Crawler.pagesStored (parse : Parser → String → Except Error Page) (c : Crawler) : Prop :=
  ∀ x ∈ c.parsed, ∀ page, parse c.parser x.1 = .ok page → c.known page.Addr = true

/-- No recorded parser call is on the address under which the page of an earlier call
was stored. -/
def Crawler.noReparse (parse : Parser → String → Except Error Page) (c : Crawler) : Prop :=
  c.parsed.Pairwise fun x y => ∀ page, parse c.parser x.1 = .ok page → page.Addr ≠ y.1

/-- Every link of a page parsed by one of the calls `new` at a level below `d - 1` is a
key of the sitemap of `c`. -/
def Crawler.linksKnown (parse : Parser → String → Except Error Page) (c : Crawler) (d : Int)
    (new : List (String × Int)) : Prop :=
  ∀ a k, (a, k) ∈ new → k + 1 < d → ∀ page, parse c.parser a = .ok page →
    ∀ link ∈ page.Links, c.known link = true

/-- The fields of the crawler that `parsePage` never assigns agree. -/
def Crawler.sameConfig (c c' : Crawler) : Prop :=
  c'.startURL = c.startURL ∧ c'.maxDepth = c.maxDepth ∧ c'.parser = c.parser
    ∧ c'.keepCrawling = c.keepCrawling

/-- `Redirects w req hops`: the request `req` is answered by a redirect to the first of
`hops`, that one by a redirect to the second, and so on. -/
def Redirects (w : World) : URL → List URL → Prop
  | _, [] => True
  | req, t :: rest => w.roundTrip req = .redirect t ∧ Redirects w t rest

instance Redirects.decidable (w : World) : ∀ (req : URL) (hops : List URL),
    Decidable (Redirects w req hops)
  | _, [] => isTrue trivial
  | req, t :: rest =>
    have := Redirects.decidable w t rest
    inferInstanceAs (Decidable (w.roundTrip req = .redirect t ∧ Redirects w t rest))

/-- The last address of a chain of redirects that starts at `req`. -/
def lastHop : URL → List URL → URL
  | req, [] => req
  | _, t :: rest => lastHop t rest

/-- The value of the closure variable `key` once the redirects `hops` are followed. -/
def Parser.keyAfter (w : World) (p : Parser) : CanonicalURL → List URL → CanonicalURL
  | key, [] => key
  | _, t :: rest => Parser.keyAfter w p ((p.normalise t).String w.esc) rest

/-- A site of four pages in which every fetch succeeds, each page under the address
asked for: the seed `http://h` links to `/a` and `/b`, `/a` links to `/b`, `/b` links
to `/c`, and every other page has no links. -/
def diamondSite : Parser → String → Except Error Page := fun _ l =>
  if l = "http://h" then .ok ⟨l, ["http://h/a", "http://h/b"]⟩
  else if l = "http://h/a" then .ok ⟨l, ["http://h/b"]⟩
  else if l = "http://h/b" then .ok ⟨l, ["http://h/c"]⟩
  else .ok ⟨l, []⟩

/-- A page of two anchors, one to `/baz` and one to `https://g/x`. -/
def demoBody : List Token :=
  [{ Typ := .TextToken, Data := "No more redirects" },
    { Typ := .StartTagToken, Data := "a", Attr := [{ Key := "href", Val := "/baz" }] },
    { Typ := .StartTagToken, Data := "a", Attr := [{ Key := "href", Val := "https://g/x" }] }]

/-- The crawler of `TestParsePageRespectsCancellationFlag`: built for the empty URL with
unlimited depth, then cancelled. -/
def cancelledCrawler : Crawler :=
  { NewCrawler Escaper.unreserved {} 0 with keepCrawling := false }

/-- A small world on the host `h`: the seed `http://h` redirects to `/foo`, `/foo`
redirects to `/bar`, and `/bar` answers with the page `demoBody`; the address `/out`
redirects to the host `g`. -/
def demoWorld : World where
  esc := Escaper.unreserved
  urlParse := fun s =>
    if s = "http://h" then some { Scheme := "http", Host := "h" }
    else if s = "http://h/out" then some { Scheme := "http", Host := "h", Path := "/out" }
    else if s = "/baz" then some { Path := "/baz" }
    else if s = "https://g/x" then some { Scheme := "https", Host := "g", Path := "/x" }
    else none
  roundTrip := fun u =>
    if u.Host = "h" then
      if u.Path = "" then .redirect { Scheme := "http", Host := "h", Path := "/foo" }
      else if u.Path = "/foo" then .redirect { Scheme := "http", Host := "h", Path := "/bar" }
      else if u.Path = "/bar" then .page demoBody
      else if u.Path = "/out" then .redirect { Scheme := "https", Host := "g", Path := "/x" }
      else .failure
    else .failure
  rangeOrder := fun keys => keys
  rangeOrder_perm := fun keys => List.Perm.refl keys

/-- The ten addresses that follow `http://h/` in the world `tenHops`. -/
def tenHopsChain : List URL :=
  (List.range 10).map fun k =>
    { Scheme := "http", Host := "h", Path := "/" ++ String.mk (List.replicate (k + 1) 'r') }

/-- A site in which one fetch fails: the seed `http://h` links to `/a` and `/c`, the
fetch of `/a` fails, and `/c` links to `/a`. -/
def flakySite : Parser → String → Except Error Page := fun _ l =>
  if l = "http://h" then .ok ⟨l, ["http://h/a", "http://h/c"]⟩
  else if l = "http://h/a" then .error .transport
  else if l = "http://h/c" then .ok ⟨l, ["http://h/a"]⟩
  else .ok ⟨l, []⟩

/-- The crawler `NewCrawler` builds for the seed `http://h` and the maximum depth `d`. -/
def crawlerAt (d : Int) : Crawler :=
  NewCrawler Escaper.unreserved { Scheme := "http", Host := "h" } d

/-- A world with a chain of ten redirects inside one domain: the address of path `/`
redirects to the path `/r`, that one to `/rr`, and so on; the path of ten letters
answers with an empty page. -/
def tenHops : World where
  esc := Escaper.unreserved
  urlParse := fun s =>
    if s = "http://h/" then some { Scheme := "http", Host := "h", Path := "/" } else none
  roundTrip := fun u =>
    if u.Path.length ≤ 10 then .redirect { u with Path := u.Path ++ "r" } else .page []
  rangeOrder := fun keys => keys
  rangeOrder_perm := fun keys => List.Perm.refl keys

/-- `w.canonical p k`: the key `k` is canonical for the domain of `p`: `url.Parse` reads
it, and normalising what it reads renders `k` again. -/
def World.canonical (w : World) (p : Parser) (k : String) : Prop :=
  ∃ v, w.urlParse k = some v ∧ (p.normalise v).String w.esc = k

/-- `w.rendered p start k`: the key `k` is the rendering of a URL that `normalise`
returned, for the seed URL `start`, for a URL that `url.Parse` returned, or for a
redirect target that the HTTP client handed to `CheckRedirect`. -/
def World.rendered (w : World) (p : Parser) (start : URL) (k : String) : Prop :=
  ∃ v, (v = start ∨ (∃ s, w.urlParse s = some v) ∨ ∃ r, w.roundTrip r = .redirect v)
    ∧ k = (p.normalise v).String w.esc

/-- The attributes of a tag up to and including the first one at which `stop` holds. -/
def keepUpTo (stop : Attribute → Bool) : List Attribute → List Attribute
  | [] => []
  | a :: rest => if stop a then [a] else a :: keepUpTo stop rest

/-- An anchor start tag with every attribute after `keepUpTo stop` removed; every other
token as it is. -/
def Token.cutAfter (stop : Attribute → Bool) (t : Token) : Token :=
  if t.Typ = .StartTagToken ∧ t.Data = "a" then { t with Attr := keepUpTo stop t.Attr } else t

/-- The token with every attribute that follows the first `href` of an anchor tag
removed. -/
def Token.upToHref (t : Token) : Token :=
  t.cutAfter fun a => a.Key = "href"

/-- The token with every attribute that follows the first `href` that `url.Parse`
accepts removed from an anchor tag. -/
def Token.upToParsedHref (w : World) (t : Token) : Token :=
  t.cutAfter fun a => a.Key = "href" ∧ (w.urlParse a.Val).isSome

/-- A page of three anchors to one target: `/x`, `/x/`, and a tag with two `href`
attributes, `%zz` (an invalid escape, which `url.Parse` rejects) and `/x`. -/
def variantBody : List Token :=
  [{ Typ := .StartTagToken, Data := "a", Attr := [{ Key := "href", Val := "/x" }] },
    { Typ := .StartTagToken, Data := "a", Attr := [{ Key := "href", Val := "/x/" }] },
    { Typ := .StartTagToken, Data := "a",
      Attr := [{ Key := "href", Val := "%zz" }, { Key := "href", Val := "/x" }] }]

/-- A world on the host `h` in which a page depends on the query: the seed `http://h`
links to `/b` and `/a`; `/b` answers with a page without links; `/a` redirects to
`/b?v=2`, which answers with the page `variantBody`. -/
def queryWorld : World where
  esc := Escaper.unreserved
  urlParse := fun s =>
    if s = "http://h" then some { Scheme := "http", Host := "h" }
    else if s = "http://h/a" then some { Scheme := "http", Host := "h", Path := "/a" }
    else if s = "http://h/b" then some { Scheme := "http", Host := "h", Path := "/b" }
    else if s = "http://h/x" then some { Scheme := "http", Host := "h", Path := "/x" }
    else if s = "/a" then some { Path := "/a" }
    else if s = "/b" then some { Path := "/b" }
    else if s = "/x" then some { Path := "/x" }
    else if s = "/x/" then some { Path := "/x/" }
    else none
  roundTrip := fun u =>
    if u.Host = "h" then
      if u.Path = "" then
        .page [{ Typ := .StartTagToken, Data := "a", Attr := [{ Key := "href", Val := "/b" }] },
          { Typ := .StartTagToken, Data := "a", Attr := [{ Key := "href", Val := "/a" }] }]
      else if u.Path = "/a" then
        .redirect { Scheme := "http", Host := "h", Path := "/b", RawQuery := "v=2" }
      else if u.Path = "/b" then (if u.RawQuery = "" then .page [] else .page variantBody)
      else .page []
    else .failure
  rangeOrder := fun keys => keys
  rangeOrder_perm := fun keys => List.Perm.refl keys

/-- A world with one page, on the host `h`.  `url.Parse` lowers the case of the scheme:
it reads `HTTP://h` as the URL of scheme `http` and host `h`. -/
def shoutWorld : World where
  esc := Escaper.unreserved
  urlParse := fun s =>
    if s = "HTTP://h" ∨ s = "http://h" then some { Scheme := "http", Host := "h" } else none
  roundTrip := fun u => if u.Host = "h" then .page [] else .failure
  rangeOrder := fun keys => keys
  rangeOrder_perm := fun keys => List.Perm.refl keys

/-- `c.fetchesNear parse l lvl`: every address reached from `l` by a chain of fewer than
`maxDepth - lvl` links is fetched successfully, and its page is returned under the
address asked for. -/
def Crawler.fetchesNear (parse : Parser → String → Except Error Page) (c : Crawler)
    (l : String) (lvl : Int) : Prop :=
  ∀ (n : Nat) (a : String), LinkChain (parse c.parser) l n a → (n : Int) < c.maxDepth - lvl →
    ∃ page, parse c.parser a = .ok page ∧ page.Addr = a

/-- The four-page site as a world on the host `h`: the seed `http://h` has anchors to
`/a` and `/b`, `/a` has one to `/b`, `/b` has one to `/c`, and `/c` has none.  `url.Parse`
reads the four addresses and the three `href` values, and rejects every other string. -/
def diamondWorld : World where
  esc := Escaper.unreserved
  urlParse := fun s =>
    if s = "http://h" then some { Scheme := "http", Host := "h" }
    else if s = "http://h/a" then some { Scheme := "http", Host := "h", Path := "/a" }
    else if s = "http://h/b" then some { Scheme := "http", Host := "h", Path := "/b" }
    else if s = "http://h/c" then some { Scheme := "http", Host := "h", Path := "/c" }
    else if s = "/a" then some { Path := "/a" }
    else if s = "/b" then some { Path := "/b" }
    else if s = "/c" then some { Path := "/c" }
    else none
  roundTrip := fun u =>
    if u.Host = "h" then
      if u.Path = "" then
        .page [{ Typ := .StartTagToken, Data := "a", Attr := [{ Key := "href", Val := "/a" }] },
          { Typ := .StartTagToken, Data := "a", Attr := [{ Key := "href", Val := "/b" }] }]
      else if u.Path = "/a" then
        .page [{ Typ := .StartTagToken, Data := "a", Attr := [{ Key := "href", Val := "/b" }] }]
      else if u.Path = "/b" then
        .page [{ Typ := .StartTagToken, Data := "a", Attr := [{ Key := "href", Val := "/c" }] }]
      else .page []
    else .failure
  rangeOrder := fun keys => keys
  rangeOrder_perm := fun keys => List.Perm.refl keys

/-- A page of two anchor tags with one `href` each and further attributes after it:
the first `href` is `%zz`, which `url.Parse` rejects, the second is `/x`. -/
def hrefThenMore : List Token :=
  [{ Typ := .StartTagToken, Data := "a",
     Attr := [{ Key := "href", Val := "%zz" }, { Key := "class", Val := "/x" },
       { Key := "title", Val := "/b" }] },
    { Typ := .StartTagToken, Data := "a",
      Attr := [{ Key := "id", Val := "x" }, { Key := "href", Val := "/x" },
        { Key := "rel", Val := "/a" }] }]

/-- A world on the host `h` whose seed page `http://h` has anchors to `/foo` and to
`/foo?`.  `url.Parse` reads a trailing `?` as an empty query and records it in
`ForceQuery`; the server answers both requests for `/foo` with the same page, which has
no links. -/
def forcedQueryWorld : World where
  esc := Escaper.unreserved
  urlParse := fun s =>
    if s = "http://h" then some { Scheme := "http", Host := "h" }
    else if s = "http://h/foo" then some { Scheme := "http", Host := "h", Path := "/foo" }
    else if s = "http://h/foo?" then
      some { Scheme := "http", Host := "h", Path := "/foo", ForceQuery := true }
    else if s = "/foo" then some { Path := "/foo" }
    else if s = "/foo?" then some { Path := "/foo", ForceQuery := true }
    else none
  roundTrip := fun u =>
    if u.Host = "h" then
      if u.Path = "" then
        .page [{ Typ := .StartTagToken, Data := "a", Attr := [{ Key := "href", Val := "/foo" }] },
          { Typ := .StartTagToken, Data := "a", Attr := [{ Key := "href", Val := "/foo?" }] }]
      else .page []
    else .failure
  rangeOrder := fun keys => keys
  rangeOrder_perm := fun keys => List.Perm.refl keys

/-! ## Theorems: the normaliser -/

theorem TrimRight_idem (s cutset : String) :
    TrimRight (TrimRight s cutset) cutset = TrimRight s cutset := by
  simp [TrimRight, List.rdropWhile_idempotent]

/-- The five assignments of `normalise` at once. -/
theorem normalise_eq (p : Parser) (u : URL) :
    p.normalise u =
      { u with
        Host := if u.Host = "" then p.domainHost else u.Host
        Scheme := if u.Scheme = "" then p.domainScheme else u.Scheme
        Path := TrimRight u.Path "/"
        RawQuery := ""
        Fragment := "" } := by
  unfold Parser.normalise
  by_cases hh : u.Host = "" <;> by_cases hs : u.Scheme = "" <;> simp [hh, hs]

/-- The path of a normalised URL does not end in a slash. -/
theorem normalise_path_last (p : Parser) (u : URL) :
    (p.normalise u).Path.data.getLast? ≠ some '/' := by
  rw [normalise_eq]
  intro h
  have hne : u.Path.data.rdropWhile (fun c => "/".data.contains c) ≠ [] := by
    intro h0
    simp only [TrimRight] at h
    rw [h0] at h
    exact absurd h (by simp)
  have hlast := List.rdropWhile_last_not (fun c => "/".data.contains c) u.Path.data hne
  simp only [TrimRight] at h
  rw [List.getLast?_eq_getLast _ hne] at h
  have h1 := Option.some.inj h
  rw [h1] at hlast
  exact hlast (by decide)

/-- A normalised URL has an empty `RawQuery` and an empty `Fragment`. -/
theorem normalise_query_fragment (p : Parser) (u : URL) :
    (p.normalise u).RawQuery = "" ∧ (p.normalise u).Fragment = "" := by
  rw [normalise_eq]
  exact ⟨rfl, rfl⟩

/-- The fields `normalise` does not assign are left as they were. -/
theorem normalise_frame (p : Parser) (u : URL) :
    (p.normalise u).Opaque = u.Opaque ∧ (p.normalise u).User = u.User
      ∧ (p.normalise u).RawPath = u.RawPath ∧ (p.normalise u).OmitHost = u.OmitHost
      ∧ (p.normalise u).ForceQuery = u.ForceQuery
      ∧ (p.normalise u).RawFragment = u.RawFragment := by
  rw [normalise_eq]
  exact ⟨rfl, rfl, rfl, rfl, rfl, rfl⟩

/-- Two URLs that differ only in the trailing slashes of the path, in `RawQuery` and in
`Fragment` have the same normal form. -/
theorem normalise_congr (p : Parser) (u : URL) (path query fragment : String)
    (h : TrimRight path "/" = TrimRight u.Path "/") :
    p.normalise { u with Path := path, RawQuery := query, Fragment := fragment }
      = p.normalise u := by
  rw [normalise_eq, normalise_eq]
  simp [h]

/-- C9: `normalise` is idempotent: for every parser domain and every URL, normalising
a normalised URL again returns it unchanged, and so does its rendering. -/
theorem normalise_idempotent (p : Parser) (u : URL) :
    p.normalise (p.normalise u) = p.normalise u
    ∧ ∀ e : Escaper, (p.normalise (p.normalise u)).String e = (p.normalise u).String e := by
  have h : p.normalise (p.normalise u) = p.normalise u := by
    unfold Parser.normalise
    by_cases hh : u.Host = "" <;> by_cases hs : u.Scheme = "" <;>
      by_cases hd : p.domainHost = "" <;> by_cases hds : p.domainScheme = "" <;>
      simp [hh, hs, hd, hds, TrimRight_idem]
  exact ⟨h, fun e => by rw [h]⟩

/-- C10, at the failing input: the URL that `url.Parse` returns for
`https://google.com/foo?` keeps its `ForceQuery` flag through `normalise`, so its
rendering still ends in the question mark, and it does not normalise to the URL that
`https://google.com/foo` normalises to, from which it differs in the query only. -/
theorem normalise_keeps_forced_query :
    ((NewParser "https" "google.com").normalise
        { Scheme := "https", Host := "google.com", Path := "/foo", ForceQuery := true }).String
        Escaper.unreserved = "https://google.com/foo?"
    ∧ ((NewParser "https" "google.com").normalise
        { Scheme := "https", Host := "google.com", Path := "/foo" }).String
        Escaper.unreserved = "https://google.com/foo"
    ∧ (NewParser "https" "google.com").normalise
        { Scheme := "https", Host := "google.com", Path := "/foo", ForceQuery := true }
      ≠ (NewParser "https" "google.com").normalise
        { Scheme := "https", Host := "google.com", Path := "/foo" } := by
  decide

/-! ## Theorems: the request loop -/

theorem lastHop_cons (req t : URL) (rest : List URL) :
    lastHop req (t :: rest) = lastHop t rest := rfl

theorem Redirects_append (w : World) :
    ∀ (a b : List URL) (req : URL),
      Redirects w req (a ++ b) ↔ Redirects w req a ∧ Redirects w (lastHop req a) b
  | [], b, req => by simp [Redirects, lastHop]
  | t :: a, b, req => by
    show (w.roundTrip req = .redirect t ∧ Redirects w t (a ++ b)) ↔ _
    rw [Redirects_append w a b t, lastHop_cons]
    simp only [Redirects, and_assoc]

/-- After at least one hop the key is the rendering of the normalised last hop. -/
theorem keyAfter_last (w : World) (p : Parser) :
    ∀ (hops : List URL) (key : CanonicalURL) (req : URL), hops ≠ [] →
      Parser.keyAfter w p key hops = (p.normalise (lastHop req hops)).String w.esc
  | [], _, _, h => absurd rfl h
  | [t], _, _, _ => by simp [Parser.keyAfter, lastHop]
  | t :: t2 :: rest, key, req, _ => by
    rw [Parser.keyAfter, lastHop_cons]
    exact keyAfter_last w p (t2 :: rest) _ t (by simp)

/-- Ten rounds are enough for the request loop: it ends by then, whatever is served. -/
theorem clientDo_fuel (w : World) (p : Parser) :
    ∀ (fuel : Nat) (req : URL) (via : Nat) (key : CanonicalURL), 10 ≤ fuel + 1 + via →
      ∃ r, Parser.clientDo w p (fuel + 1) req via key = some r := by
  intro fuel
  induction fuel with
  | zero =>
    intro req via key h
    unfold Parser.clientDo
    cases hrt : w.roundTrip req with
    | failure => exact ⟨_, rfl⟩
    | page body => exact ⟨_, rfl⟩
    | redirect target =>
      have hv : via + 1 ≥ 10 := by omega
      simp only [hv, if_true]
      split_ifs <;> exact ⟨_, rfl⟩
  | succ fuel ih =>
    intro req via key h
    unfold Parser.clientDo
    cases hrt : w.roundTrip req with
    | failure => exact ⟨_, rfl⟩
    | page body => exact ⟨_, rfl⟩
    | redirect target =>
      simp only
      split_ifs with h1 h2
      · exact ⟨_, rfl⟩
      · exact ⟨_, rfl⟩
      · exact ih target (via + 1) _ (by omega)

/-- The fuel `parse` gives the request loop is never used up. -/
theorem clientDo_ten (w : World) (p : Parser) (req : URL) (key : CanonicalURL) :
    ∃ r, Parser.clientDo w p 10 req 0 key = some r :=
  clientDo_fuel w p 9 req 0 key (by omega)

/-- Redirects that stay inside the domain and inside the limit are followed. -/
theorem clientDo_follow (w : World) (p : Parser) :
    ∀ (hops : List URL) (fuel : Nat) (req : URL) (via : Nat) (key : CanonicalURL),
      Redirects w req hops → (∀ t ∈ hops, t.Host = p.domainHost) → via + hops.length < 10 →
      Parser.clientDo w p (fuel + hops.length) req via key
        = Parser.clientDo w p fuel (lastHop req hops) (via + hops.length)
            (Parser.keyAfter w p key hops)
  | [], fuel, req, via, key, _, _, _ => by simp [lastHop, Parser.keyAfter]
  | t :: rest, fuel, req, via, key, hch, hdom, hlen => by
    obtain ⟨hrt, hrest⟩ := hch
    have ht : t.Host = p.domainHost := hdom t (List.mem_cons_self _ _)
    have hlen1 : via + 1 + rest.length < 10 := by simp only [List.length_cons] at hlen; omega
    have hv : ¬ via + 1 ≥ 10 := by omega
    have ih := clientDo_follow w p rest fuel t (via + 1) ((p.normalise t).String w.esc) hrest
      (fun x hx => hdom x (List.mem_cons_of_mem _ hx)) hlen1
    have hf : fuel + (t :: rest).length = (fuel + rest.length) + 1 := by
      simp only [List.length_cons]; omega
    rw [hf, Parser.clientDo, hrt]
    simp only [ht, ne_eq, not_true_eq_false, if_false, hv]
    rw [ih, lastHop_cons, Parser.keyAfter]
    congr 1
    simp only [List.length_cons]; omega

/-- A chain that reaches ten redirects inside the domain ends with `ErrTooManyRedirects`. -/
theorem clientDo_too_many (w : World) (p : Parser) :
    ∀ (hops : List URL) (fuel : Nat) (req : URL) (via : Nat) (key : CanonicalURL),
      Redirects w req hops → (∀ t ∈ hops, t.Host = p.domainHost) →
      via < 10 → 10 ≤ via + hops.length → 10 ≤ fuel + via →
      Parser.clientDo w p fuel req via key = some (.error .ErrTooManyRedirects)
  | [], fuel, req, via, key, _, _, hv, hlen, _ => by simp at hlen; omega
  | t :: rest, 0, req, via, key, _, _, hv, _, hf => by omega
  | t :: rest, fuel + 1, req, via, key, hch, hdom, hv, hlen, hf => by
    obtain ⟨hrt, hrest⟩ := hch
    have ht : t.Host = p.domainHost := hdom t (List.mem_cons_self _ _)
    rw [Parser.clientDo, hrt]
    simp only [ht, ne_eq, not_true_eq_false, if_false]
    by_cases h10 : via + 1 ≥ 10
    · simp [h10]
    · simp only [h10, if_false]
      exact clientDo_too_many w p rest fuel t (via + 1) _ hrest
        (fun x hx => hdom x (List.mem_cons_of_mem _ hx)) (by omega)
        (by simp only [List.length_cons] at hlen; omega) (by omega)

/-! ## Theorems: the sitemap and the recursion of `parsePage` -/

theorem Sitemap.index_filter_ne (s : Sitemap) (u k : CanonicalURL) (h : k ≠ u) :
    Sitemap.index (s.filter (fun e => e.1 ≠ u)) k = Sitemap.index s k := by
  unfold Sitemap.index
  rw [List.find?_filter]
  congr 2
  funext e
  by_cases hk : e.1 = k
  · have he : ¬ e.1 = u := fun heu => h (hk ▸ heu)
    simp [hk, he, h]
  · simp [hk]

theorem Sitemap.index_assign (s : Sitemap) (u k : CanonicalURL) (links : Links) :
    Sitemap.index (s.assign u links) k = if k = u then some links else Sitemap.index s k := by
  by_cases h : k = u
  · subst h
    simp [Sitemap.assign, Sitemap.index, List.find?_cons]
  · have h2 : ¬ u = k := fun e => h e.symm
    rw [if_neg h, ← Sitemap.index_filter_ne s u k h]
    unfold Sitemap.index Sitemap.assign
    rw [List.find?_cons]
    simp [h2]

theorem Crawler.known_iff (c : Crawler) (u : CanonicalURL) :
    c.known u = true ↔ ∃ links, c.sitemap.index u = some links := by
  unfold Crawler.known
  exact Option.isSome_iff_exists

theorem Crawler.known_false_iff (c : Crawler) (u : CanonicalURL) :
    c.known u = false ↔ c.sitemap.index u = none := by
  unfold Crawler.known
  cases c.sitemap.index u <;> simp

theorem Crawler.index_add (c : Crawler) (page : Page) (k : CanonicalURL) :
    (c.add page).sitemap.index k
      = if k = page.Addr then some page.Links else c.sitemap.index k := by
  simp [Crawler.add, Sitemap.index_assign]

theorem Crawler.known_add (c : Crawler) (page : Page) (k : CanonicalURL) :
    (c.add page).known k = true ↔ k = page.Addr ∨ c.known k = true := by
  unfold Crawler.known
  rw [Crawler.index_add]
  by_cases h : k = page.Addr <;> simp [h]

theorem Crawler.sameConfig_refl (c : Crawler) : c.sameConfig c := ⟨rfl, rfl, rfl, rfl⟩

theorem Crawler.sameConfig_trans {a b c : Crawler} (h1 : a.sameConfig b) (h2 : b.sameConfig c) :
    a.sameConfig c :=
  ⟨h2.1.trans h1.1, h2.2.1.trans h1.2.1, h2.2.2.1.trans h1.2.2.1, h2.2.2.2.trans h1.2.2.2⟩

theorem Crawler.sameConfig_step (c : Crawler) (l : String) (lvl : Int) (page : Page) :
    c.sameConfig (c.calling l lvl) ∧ c.sameConfig ((c.calling l lvl).add page) :=
  ⟨⟨rfl, rfl, rfl, rfl⟩, ⟨rfl, rfl, rfl, rfl⟩⟩

/-- The unfolding of `proceeds`: not cancelled, the depth allows the call, and the
address is no key of the sitemap. -/
theorem Crawler.proceeds_iff (c : Crawler) (l : String) (lvl : Int) :
    c.proceeds l lvl = true ↔
      c.keepCrawling = true ∧ (c.maxDepth = 0 ∨ lvl < c.maxDepth) ∧ c.sitemap.index l = none := by
  unfold Crawler.proceeds
  rw [Bool.and_eq_true, Bool.and_eq_true, Bool.or_eq_true, Bool.not_eq_true',
    Crawler.known_false_iff, decide_eq_true_eq, beq_iff_eq, and_assoc]

/-- Rule induction for `parsePage` and its loop: `P` is shown of every call that returns,
`Q` of every run of the loop that returns. -/
theorem parsePage_induction (parse : Parser → String → Except Error Page)
    (P : Crawler → String → Int → Crawler → Prop)
    (Q : Crawler → List String → Int → Crawler → Prop)
    (hskip : ∀ c l lvl, c.proceeds l lvl = false → P c l lvl c)
    (hfail : ∀ c l lvl err, c.proceeds l lvl = true → parse c.parser l = .error err →
      P c l lvl (c.calling l lvl))
    (hpage : ∀ c l lvl page c', c.proceeds l lvl = true → parse c.parser l = .ok page →
      Q ((c.calling l lvl).add page) page.Links (lvl + 1) c' → P c l lvl c')
    (hnil : ∀ c lvl, Q c [] lvl c)
    (hknown : ∀ c link rest lvl c', c.known link = true → Q c rest lvl c' →
      Q c (link :: rest) lvl c')
    (hnew : ∀ c link rest lvl c1 c', c.known link = false → P c link lvl c1 →
      Q c1 rest lvl c' → Q c (link :: rest) lvl c') :
    ∀ fuel,
      (∀ c l lvl c', Crawler.parsePage parse fuel c l lvl = some c' → P c l lvl c')
      ∧ (∀ links c lvl c',
          Crawler.rangeLinks (Crawler.parsePage parse fuel) links lvl c = some c' →
          Q c links lvl c') := by
  intro fuel
  induction fuel with
  | zero =>
    have hP : ∀ c l lvl c', Crawler.parsePage parse 0 c l lvl = some c' → P c l lvl c' := by
      intro c l lvl c' h
      simp [Crawler.parsePage] at h
    refine ⟨hP, ?_⟩
    intro links
    induction links with
    | nil =>
      intro c lvl c' h
      simp only [Crawler.rangeLinks, Option.some.injEq] at h
      subst h
      exact hnil c lvl
    | cons link rest ih =>
      intro c lvl c' h
      unfold Crawler.rangeLinks at h
      cases hk : c.known link with
      | true =>
        simp only [hk, Bool.not_true, Bool.false_eq_true, if_false] at h
        exact hknown c link rest lvl c' hk (ih c lvl c' h)
      | false =>
        simp [hk, Crawler.parsePage] at h
  | succ fuel ihf =>
    have hP : ∀ c l lvl c', Crawler.parsePage parse (fuel + 1) c l lvl = some c' →
        P c l lvl c' := by
      intro c l lvl c' h
      unfold Crawler.parsePage at h
      cases hg : c.proceeds l lvl with
      | false =>
        simp only [hg, Bool.false_eq_true, if_false, Option.some.injEq] at h
        subst h
        exact hskip c l lvl hg
      | true =>
        simp only [hg, if_true] at h
        cases hp : parse c.parser l with
        | error err =>
          simp only [hp, Option.some.injEq] at h
          subst h
          exact hfail c l lvl err hg hp
        | ok page =>
          simp only [hp] at h
          exact hpage c l lvl page c' hg hp (ihf.2 page.Links _ _ c' h)
    refine ⟨hP, ?_⟩
    intro links
    induction links with
    | nil =>
      intro c lvl c' h
      simp only [Crawler.rangeLinks, Option.some.injEq] at h
      subst h
      exact hnil c lvl
    | cons link rest ih =>
      intro c lvl c' h
      unfold Crawler.rangeLinks at h
      cases hk : c.known link with
      | true =>
        simp only [hk, Bool.not_true, Bool.false_eq_true, if_false] at h
        exact hknown c link rest lvl c' hk (ih c lvl c' h)
      | false =>
        simp only [hk, Bool.not_false, if_true] at h
        cases hv : Crawler.parsePage parse (fuel + 1) c link lvl with
        | none => simp [hv] at h
        | some c1 =>
          simp only [hv] at h
          exact hnew c link rest lvl c1 c' hk (hP c link lvl c1 hv) (ih c1 lvl c' h)

/-- What every call of `parsePage` keeps: the configuration, the keys of the sitemap,
and the record of the parser calls made before. -/
theorem parsePage_basic (parse : Parser → String → Except Error Page) (fuel : Nat) :
    (∀ c l lvl c', Crawler.parsePage parse fuel c l lvl = some c' →
      c.sameConfig c' ∧ (∀ k, c.known k = true → c'.known k = true)
        ∧ ∃ new, c'.parsed = c.parsed ++ new)
    ∧ (∀ links c lvl c',
        Crawler.rangeLinks (Crawler.parsePage parse fuel) links lvl c = some c' →
        c.sameConfig c' ∧ (∀ k, c.known k = true → c'.known k = true)
          ∧ ∃ new, c'.parsed = c.parsed ++ new) := by
  refine parsePage_induction parse
    (fun c _ _ c' => c.sameConfig c' ∧ (∀ k, c.known k = true → c'.known k = true)
        ∧ ∃ new, c'.parsed = c.parsed ++ new)
    (fun c _ _ c' => c.sameConfig c' ∧ (∀ k, c.known k = true → c'.known k = true)
        ∧ ∃ new, c'.parsed = c.parsed ++ new)
    ?_ ?_ ?_ ?_ ?_ ?_ fuel
  · intro c l lvl _
    exact ⟨c.sameConfig_refl, fun _ h => h, [], by simp⟩
  · intro c l lvl err _ _
    exact ⟨(c.sameConfig_step l lvl ⟨"", []⟩).1, fun _ h => h, [(l, lvl)], rfl⟩
  · intro c l lvl page c' _ _ hq
    obtain ⟨hc, hm, new, hnew⟩ := hq
    refine ⟨Crawler.sameConfig_trans (c.sameConfig_step l lvl page).2 hc, ?_, (l, lvl) :: new, ?_⟩
    · intro k hk
      exact hm k ((Crawler.known_add _ page k).2 (Or.inr hk))
    · rw [hnew]
      show (c.parsed ++ [(l, lvl)]) ++ new = c.parsed ++ (l, lvl) :: new
      simp
  · intro c lvl
    exact ⟨c.sameConfig_refl, fun _ h => h, [], by simp⟩
  · intro c link rest lvl c' _ hq
    exact hq
  · intro c link rest lvl c1 c' _ hp hq
    obtain ⟨hc1, hm1, new1, hn1⟩ := hp
    obtain ⟨hc2, hm2, new2, hn2⟩ := hq
    exact ⟨Crawler.sameConfig_trans hc1 hc2, fun k hk => hm2 k (hm1 k hk), new1 ++ new2,
      by rw [hn2, hn1, List.append_assoc]⟩

/-- With a positive maximum depth `parsePage` returns once the fuel exceeds the number
of levels left. -/
theorem parsePage_terminates (parse : Parser → String → Except Error Page) (d : Int)
    (hd : 0 < d) :
    ∀ (fuel : Nat) (c : Crawler) (l : String) (lvl : Int), c.maxDepth = d →
      (d - lvl).toNat < fuel → ∃ c', Crawler.parsePage parse fuel c l lvl = some c' := by
  intro fuel
  induction fuel with
  | zero => intro c l lvl _ h; omega
  | succ fuel ih =>
    intro c l lvl hc hf
    unfold Crawler.parsePage
    cases hg : c.proceeds l lvl with
    | false => exact ⟨c, by simp⟩
    | true =>
      simp only [if_true]
      cases hp : parse c.parser l with
      | error err => exact ⟨_, rfl⟩
      | ok page =>
        simp only
        have hlvl : lvl < d := by
          rcases ((c.proceeds_iff l lvl).1 hg).2.1 with h0 | h1
          · omega
          · omega
        have hloop : ∀ (links : List String) (c1 : Crawler), c1.maxDepth = d →
            ∃ c', Crawler.rangeLinks (Crawler.parsePage parse fuel) links (lvl + 1) c1
              = some c' := by
          intro links
          induction links with
          | nil => intro c1 _; exact ⟨c1, rfl⟩
          | cons link rest ihl =>
            intro c1 hc1
            unfold Crawler.rangeLinks
            cases hk : c1.known link with
            | true => simpa using ihl c1 hc1
            | false =>
              obtain ⟨c2, h2⟩ := ih c1 link (lvl + 1) hc1 (by omega)
              have hc2 : c2.maxDepth = d :=
                (((parsePage_basic parse fuel).1 c1 link (lvl + 1) c2 h2).1.2.1).trans hc1
              simpa [h2] using ihl c2 hc2
        exact hloop page.Links _ hc

theorem LinkChain.cons {fetch : String → Except Error Page} {a link b : String} {n : Nat}
    {page : Page} (h : fetch a = .ok page) (hl : link ∈ page.Links)
    (hc : LinkChain fetch link n b) : LinkChain fetch a (n + 1) b := by
  induction hc with
  | here => exact .next (.here a) h hl
  | next _ hf hm ih => exact .next ih hf hm

/-! ## Theorems: the depth bound -/

/-- Every entry of the sitemap after a call was there before or is the page of an
address within the levels left, for `parsePage` and for its loop. -/
theorem parsePage_entries (parse : Parser → String → Except Error Page) (fuel : Nat) :
    ∀ c l lvl c', Crawler.parsePage parse fuel c l lvl = some c' →
      c.sameConfig c' ∧ (0 < c.maxDepth → ∀ K L, c'.sitemap.index K = some L →
        c.sitemap.index K = some L ∨ ∃ (B : String) (n : Nat), (n : Int) < c.maxDepth - lvl
          ∧ LinkChain (parse c.parser) l n B ∧ parse c.parser B = .ok ⟨K, L⟩) := by
  refine (parsePage_induction parse
    (fun c l lvl c' => c.sameConfig c' ∧ (0 < c.maxDepth → ∀ K L,
      c'.sitemap.index K = some L →
        c.sitemap.index K = some L ∨ ∃ (B : String) (n : Nat), (n : Int) < c.maxDepth - lvl
          ∧ LinkChain (parse c.parser) l n B ∧ parse c.parser B = .ok ⟨K, L⟩))
    (fun c links lvl c' => c.sameConfig c' ∧ (0 < c.maxDepth → ∀ K L,
      c'.sitemap.index K = some L →
        c.sitemap.index K = some L ∨ ∃ link ∈ links, ∃ (B : String) (n : Nat), (n : Int) < c.maxDepth - lvl
          ∧ LinkChain (parse c.parser) link n B ∧ parse c.parser B = .ok ⟨K, L⟩))
    ?_ ?_ ?_ ?_ ?_ ?_ fuel).1
  · intro c l lvl _
    exact ⟨c.sameConfig_refl, fun _ K L h => Or.inl h⟩
  · intro c l lvl err _ _
    exact ⟨(c.sameConfig_step l lvl ⟨"", []⟩).1, fun _ K L h => Or.inl h⟩
  · intro c l lvl page c' hg hp hq
    obtain ⟨hc, hq⟩ := hq
    refine ⟨Crawler.sameConfig_trans (c.sameConfig_step l lvl page).2 hc, ?_⟩
    intro hd K L hK
    have hlvl : lvl < c.maxDepth := by
      rcases ((c.proceeds_iff l lvl).1 hg).2.1 with h0 | h1
      · omega
      · exact h1
    rcases hq hd K L hK with h1 | ⟨link, hlink, B, n, hn, hch, hB⟩
    · rw [Crawler.index_add] at h1
      by_cases hKa : K = page.Addr
      · rw [if_pos hKa] at h1
        refine Or.inr ⟨l, 0, ?_, LinkChain.here l, ?_⟩
        · simp only [Nat.cast_zero]; omega
        · rw [hp, hKa, ← Option.some.inj h1]
      · rw [if_neg hKa] at h1
        exact Or.inl h1
    · refine Or.inr ⟨B, n + 1, ?_, LinkChain.cons hp hlink hch, hB⟩
      have hmd : ((c.calling l lvl).add page).maxDepth = c.maxDepth := rfl
      rw [hmd] at hn
      push_cast
      omega
  · intro c lvl
    exact ⟨c.sameConfig_refl, fun _ K L h => Or.inl h⟩
  · intro c link rest lvl c' _ hq
    refine ⟨hq.1, fun hd K L hK => ?_⟩
    rcases hq.2 hd K L hK with h1 | ⟨x, hx, h2⟩
    · exact Or.inl h1
    · exact Or.inr ⟨x, List.mem_cons_of_mem _ hx, h2⟩
  · intro c link rest lvl c1 c' _ hp hq
    obtain ⟨hc1, hp⟩ := hp
    obtain ⟨hc2, hq⟩ := hq
    refine ⟨Crawler.sameConfig_trans hc1 hc2, fun hd K L hK => ?_⟩
    have hd1 : 0 < c1.maxDepth := by rw [hc1.2.1]; exact hd
    rcases hq hd1 K L hK with h1 | ⟨x, hx, B, n, hn, hch, hB⟩
    · rcases hp hd K L h1 with h0 | ⟨B, n, hn, hch, hB⟩
      · exact Or.inl h0
      · exact Or.inr ⟨link, List.mem_cons_self _ _, B, n, hn, hch, hB⟩
    · rw [hc1.2.1] at hn
      rw [hc1.2.2.1] at hch hB
      exact Or.inr ⟨x, List.mem_cons_of_mem _ hx, B, n, hn, hch, hB⟩

/-- C1: with a maximum depth `d > 0`, for every page-fetch function and every start
level, `parsePage(A, lvl)` returns, and every entry of the sitemap that was not there
before is the page obtained by parsing an address reached from `A` by a chain of fewer
than `d - lvl` links; a call with `lvl ≥ d` changes nothing and records no parser call. -/
theorem parsePage_depth_bound (parse : Parser → String → Except Error Page) (c : Crawler)
    (A : String) (lvl : Int) (fuel : Nat) (hd : 0 < c.maxDepth)
    (hfuel : (c.maxDepth - lvl).toNat < fuel) :
    ∃ c', Crawler.parsePage parse fuel c A lvl = some c'
      ∧ (∀ K L, c'.sitemap.index K = some L →
          c.sitemap.index K = some L ∨ ∃ (B : String) (n : Nat), (n : Int) < c.maxDepth - lvl
            ∧ LinkChain (parse c.parser) A n B ∧ parse c.parser B = .ok ⟨K, L⟩)
      ∧ (c.maxDepth ≤ lvl → c' = c) := by
  obtain ⟨c', hc'⟩ := parsePage_terminates parse c.maxDepth hd fuel c A lvl rfl hfuel
  refine ⟨c', hc', (parsePage_entries parse fuel c A lvl c' hc').2 hd, ?_⟩
  intro hle
  have hg : c.proceeds A lvl = false := by
    cases hg : c.proceeds A lvl with
    | false => rfl
    | true =>
      rcases ((c.proceeds_iff A lvl).1 hg).2.1 with h0 | h1
      · omega
      · omega
  cases fuel with
  | zero => omega
  | succ fuel =>
    simp only [Crawler.parsePage, hg, Bool.false_eq_true, if_false, Option.some.injEq] at hc'
    exact hc'.symm

/-- C1 at the seed `http://h` with maximum depth 3, on the four-page site. -/
theorem parsePage_depth_bound_witness :
    0 < (crawlerAt 3).maxDepth ∧ ((crawlerAt 3).maxDepth - 0).toNat < 4
      ∧ ∃ c', Crawler.parsePage diamondSite 4 (crawlerAt 3) "http://h" 0 = some c'
        ∧ (∀ K L, c'.sitemap.index K = some L →
            (crawlerAt 3).sitemap.index K = some L ∨ ∃ (B : String) (n : Nat), (n : Int) < (crawlerAt 3).maxDepth - 0
              ∧ LinkChain (diamondSite (crawlerAt 3).parser) "http://h" n B
              ∧ diamondSite (crawlerAt 3).parser B = .ok ⟨K, L⟩)
        ∧ ((crawlerAt 3).maxDepth ≤ 0 → c' = crawlerAt 3) :=
  ⟨by decide, by decide,
    parsePage_depth_bound diamondSite (crawlerAt 3) "http://h" 0 4 (by decide) (by decide)⟩

/-! ## Theorems: redirects -/

/-- C7, at a chain of exactly ten redirects: every hop stays on the host `h` and the
tenth address answers with a page, yet `parse` fails with `ErrTooManyRedirects`. -/
theorem parse_ten_hops_fails :
    Redirects tenHops { Scheme := "http", Host := "h", Path := "/" } tenHopsChain
      ∧ tenHopsChain.length = 10
      ∧ (∀ t ∈ tenHopsChain, t.Host = (NewParser "http" "h").domainHost)
      ∧ tenHops.roundTrip (lastHop { Scheme := "http", Host := "h", Path := "/" } tenHopsChain)
          = .page []
      ∧ (NewParser "http" "h").parse tenHops "http://h/" = .error .ErrTooManyRedirects := by
  refine ⟨by decide, by decide, by decide, by decide, by rfl⟩

/-- The result of `parse` once the request loop has delivered a body. -/
theorem parse_of_clientDo_ok (w : World) (p : Parser) (u : String) (req : URL)
    (body : List Token) (key : CanonicalURL) (hu : w.urlParse u = some req)
    (hr : Parser.clientDo w p 10 req 0 u = some (.ok (body, key))) :
    p.parse w u = .ok ⟨key, w.rangeOrder (p.tokens w body [])⟩ := by
  unfold Parser.parse
  rw [hu]
  simp only [hr]

/-- The result of `parse` once the request loop has failed. -/
theorem parse_of_clientDo_error (w : World) (p : Parser) (u : String) (req : URL)
    (err : Error) (hu : w.urlParse u = some req)
    (hr : Parser.clientDo w p 10 req 0 u = some (.error err)) :
    p.parse w u = .error err := by
  unfold Parser.parse
  rw [hu]
  simp only [hr]

/-- The request loop on a chain of fewer than ten redirects inside the domain that ends
in a page: the body of that page, under the key of the last hop. -/
theorem clientDo_page (w : World) (p : Parser) (u : String) (req : URL) (hops : List URL)
    (body : List Token) (hch : Redirects w req hops)
    (hdom : ∀ t ∈ hops, t.Host = p.domainHost) (hlen : hops.length < 10)
    (hbody : w.roundTrip (lastHop req hops) = .page body) :
    Parser.clientDo w p 10 req 0 u = some (.ok (body, Parser.keyAfter w p u hops)) := by
  have h10 : 10 = (9 - hops.length + 1) + hops.length := by omega
  rw [h10, clientDo_follow w p hops _ req 0 u hch hdom (by omega), Parser.clientDo, hbody]

/-- C5: when a request is answered through a chain of redirects that stays inside the
domain and ends in a page, `parse` returns that page with `Addr` the rendering of the
normalised last hop, and `parsePage` stores the page under that `Addr`: the requested
address, when it differs, gets no entry from this call. -/
theorem parse_redirect_addr (w : World) (p : Parser) (u : String) (req : URL)
    (hops : List URL) (body : List Token) (hu : w.urlParse u = some req) (hne : hops ≠ [])
    (hch : Redirects w req hops) (hdom : ∀ t ∈ hops, t.Host = p.domainHost)
    (hbody : w.roundTrip (lastHop req hops) = .page body) :
    (hops.length < 10 → p.parse w u
        = .ok ⟨(p.normalise (lastHop req hops)).String w.esc, w.rangeOrder (p.tokens w body [])⟩)
    ∧ (∀ page, p.parse w u = .ok page →
        page.Addr = (p.normalise (lastHop req hops)).String w.esc)
    ∧ (∀ (c : Crawler) (lvl : Int) (fuel : Nat) (page : Page), c.parser = p →
        c.proceeds u lvl = true → p.parse w u = .ok page →
        Crawler.parsePage (Parser.parse w) (fuel + 1) c u lvl
            = Crawler.rangeLinks (Crawler.parsePage (Parser.parse w) fuel) page.Links (lvl + 1)
                ((c.calling u lvl).add page)
          ∧ ((c.calling u lvl).add page).sitemap.index page.Addr = some page.Links
          ∧ (u ≠ page.Addr → ((c.calling u lvl).add page).sitemap.index u = none)
          ∧ ∀ c', Crawler.parsePage (Parser.parse w) (fuel + 1) c u lvl = some c' →
              c'.known page.Addr = true) := by
  have hshort : hops.length < 10 → p.parse w u
      = .ok ⟨(p.normalise (lastHop req hops)).String w.esc,
          w.rangeOrder (p.tokens w body [])⟩ := by
    intro hlen
    rw [parse_of_clientDo_ok w p u req _ _ hu
      (clientDo_page w p u req hops body hch hdom hlen hbody), keyAfter_last w p hops u req hne]
  refine ⟨hshort, ?_, ?_⟩
  · intro page hpage
    by_cases hlen : hops.length < 10
    · rw [hshort hlen] at hpage
      rw [← Except.ok.inj hpage]
    · have h := clientDo_too_many w p hops 10 req 0 u hch hdom (by omega) (by omega) (by omega)
      rw [parse_of_clientDo_error w p u req _ hu h] at hpage
      exact absurd hpage (by simp)
  · intro c lvl fuel page hc hg hpage
    have hstep : Crawler.parsePage (Parser.parse w) (fuel + 1) c u lvl
        = Crawler.rangeLinks (Crawler.parsePage (Parser.parse w) fuel) page.Links (lvl + 1)
            ((c.calling u lvl).add page) := by
      rw [Crawler.parsePage]
      simp only [hg, if_true, hc, hpage]
    refine ⟨hstep, ?_, ?_, ?_⟩
    · rw [Crawler.index_add, if_pos rfl]
    · intro hne'
      rw [Crawler.index_add, if_neg hne']
      exact ((c.proceeds_iff u lvl).1 hg).2.2
    · intro c' hc'
      rw [hstep] at hc'
      exact ((parsePage_basic (Parser.parse w) fuel).2 _ _ _ c' hc').2.1 page.Addr
        ((Crawler.known_add _ page page.Addr).2 (Or.inl rfl))

/-- C5 in the world `demoWorld`: the seed `http://h` is answered through `/foo` and
`/bar`, and its page is stored under `http://h/bar`. -/
theorem parse_redirect_addr_witness :
    demoWorld.urlParse "http://h" = some { Scheme := "http", Host := "h" }
    ∧ (NewParser "http" "h").parse demoWorld "http://h"
        = .ok ⟨"http://h/bar", ["http://h/baz"]⟩ :=
  ⟨by decide,
    (parse_redirect_addr demoWorld (NewParser "http" "h") "http://h"
      { Scheme := "http", Host := "h" }
      [{ Scheme := "http", Host := "h", Path := "/foo" },
        { Scheme := "http", Host := "h", Path := "/bar" }] demoBody
      (by decide) (by decide) (by decide) (by decide) (by rfl)).1 (by decide)⟩

/-- The request loop after fewer than ten redirects inside the domain: one more round,
at the last hop. -/
theorem clientDo_at_last (w : World) (p : Parser) (u : String) (req : URL) (hops : List URL)
    (hch : Redirects w req hops) (hdom : ∀ t ∈ hops, t.Host = p.domainHost)
    (hlen : hops.length < 10) :
    Parser.clientDo w p 10 req 0 u
      = Parser.clientDo w p (9 - hops.length + 1) (lastHop req hops) (0 + hops.length)
          (Parser.keyAfter w p u hops) := by
  have h10 : 10 = (9 - hops.length + 1) + hops.length := by omega
  rw [h10, clientDo_follow w p hops _ req 0 u hch hdom (by omega)]

/-- C6: when the fetch reaches a redirect whose target is on another host than the
domain, `parse` fails with `ErrExternalDomain` and returns no page, and `parsePage`
returns with the sitemap as it was. -/
theorem parse_external_redirect (w : World) (p : Parser) (u : String) (req : URL)
    (hops : List URL) (target : URL) (hu : w.urlParse u = some req)
    (hch : Redirects w req hops) (hdom : ∀ t ∈ hops, t.Host = p.domainHost)
    (hlen : hops.length < 10) (hred : w.roundTrip (lastHop req hops) = .redirect target)
    (hext : target.Host ≠ p.domainHost) :
    p.parse w u = .error .ErrExternalDomain
    ∧ ∀ (c : Crawler) (lvl : Int) (fuel : Nat), c.parser = p →
        ∃ c', Crawler.parsePage (Parser.parse w) (fuel + 1) c u lvl = some c'
          ∧ c'.sitemap = c.sitemap := by
  have hparse : p.parse w u = .error .ErrExternalDomain := by
    apply parse_of_clientDo_error w p u req _ hu
    rw [clientDo_at_last w p u req hops hch hdom hlen, Parser.clientDo, hred]
    simp only [ne_eq, hext, not_false_eq_true, if_true]
  refine ⟨hparse, ?_⟩
  intro c lvl fuel hc
  rw [Crawler.parsePage]
  cases hg : c.proceeds u lvl with
  | false => exact ⟨c, by simp, rfl⟩
  | true =>
    simp only [if_true, hc, hparse]
    exact ⟨_, rfl, rfl⟩

/-- C6 in the world `demoWorld`: `http://h/out` redirects to the host `g`. -/
theorem parse_external_redirect_witness :
    demoWorld.urlParse "http://h/out" = some { Scheme := "http", Host := "h", Path := "/out" }
    ∧ demoWorld.roundTrip { Scheme := "http", Host := "h", Path := "/out" }
        = .redirect { Scheme := "https", Host := "g", Path := "/x" }
    ∧ (NewParser "http" "h").parse demoWorld "http://h/out" = .error .ErrExternalDomain :=
  ⟨by decide, by decide,
    (parse_external_redirect demoWorld (NewParser "http" "h") "http://h/out"
      { Scheme := "http", Host := "h", Path := "/out" } []
      { Scheme := "https", Host := "g", Path := "/x" }
      (by decide) (by decide) (by decide) (by decide) (by decide) (by decide)).1⟩

/-- C7, amended: for a request whose redirects all stay inside the domain, `parse` fails
with `ErrTooManyRedirects` exactly when the number of redirect hops reaches 10: a chain
of 10 or more hops fails with that error, and a chain of at most 9 hops that ends in a
page is followed to that page. -/
theorem parse_too_many_redirects (w : World) (p : Parser) (u : String) (req : URL)
    (hops : List URL) (hu : w.urlParse u = some req) (hch : Redirects w req hops)
    (hdom : ∀ t ∈ hops, t.Host = p.domainHost) :
    (10 ≤ hops.length → p.parse w u = .error .ErrTooManyRedirects)
    ∧ (∀ body, hops.length ≤ 9 → w.roundTrip (lastHop req hops) = .page body →
        p.parse w u = .ok ⟨Parser.keyAfter w p u hops, w.rangeOrder (p.tokens w body [])⟩)
    ∧ ((∀ t, w.roundTrip (lastHop req hops) ≠ .redirect t) →
        (p.parse w u = .error .ErrTooManyRedirects ↔ 10 ≤ hops.length)) := by
  have hmany : 10 ≤ hops.length → p.parse w u = .error .ErrTooManyRedirects := fun hlen =>
    parse_of_clientDo_error w p u req _ hu
      (clientDo_too_many w p hops 10 req 0 u hch hdom (by omega) (by omega) (by omega))
  refine ⟨hmany, ?_, ?_⟩
  · intro body hlen hbody
    exact parse_of_clientDo_ok w p u req _ _ hu
      (clientDo_page w p u req hops body hch hdom (by omega) hbody)
  · intro hend
    refine ⟨fun hfail => ?_, hmany⟩
    by_contra hlt
    have hlen : hops.length < 10 := by omega
    have hdo := clientDo_at_last w p u req hops hch hdom hlen
    cases hrt : w.roundTrip (lastHop req hops) with
    | failure =>
      have hlast : Parser.clientDo w p (9 - hops.length + 1) (lastHop req hops)
          (0 + hops.length) (Parser.keyAfter w p u hops) = some (.error .transport) := by
        rw [Parser.clientDo, hrt]
      rw [hlast] at hdo
      rw [parse_of_clientDo_error w p u req _ hu hdo] at hfail
      exact absurd (Except.error.inj hfail) (by decide)
    | page body =>
      rw [parse_of_clientDo_ok w p u req _ _ hu
        (clientDo_page w p u req hops body hch hdom hlen hrt)] at hfail
      exact absurd hfail (by simp)
    | redirect t => exact hend t hrt

/-- C7, amended, in the world `tenHops`: the chain of ten hops fails. -/
theorem parse_too_many_redirects_witness :
    tenHops.urlParse "http://h/" = some { Scheme := "http", Host := "h", Path := "/" }
    ∧ Redirects tenHops { Scheme := "http", Host := "h", Path := "/" } tenHopsChain
    ∧ (∀ t ∈ tenHopsChain, t.Host = (NewParser "http" "h").domainHost)
    ∧ 10 ≤ tenHopsChain.length
    ∧ (NewParser "http" "h").parse tenHops "http://h/" = .error .ErrTooManyRedirects :=
  ⟨by decide, by decide, by decide, by decide,
    (parse_too_many_redirects tenHops (NewParser "http" "h") "http://h/"
      { Scheme := "http", Host := "h", Path := "/" } tenHopsChain
      (by decide) (by decide) (by decide)).1 (by decide)⟩

/-! ## Theorems: the links of a page -/

/-- Every link the attribute loop adds is the rendering of a normalised URL on the
host of the domain, with scheme `http` or `https`. -/
theorem anchor_mem (w : World) (p : Parser) :
    ∀ (attrs : List Attribute) (mLinks : List String) (l : String),
      l ∈ p.anchor w attrs mLinks → l ∈ mLinks ∨ ∃ v : URL, l = (p.normalise v).String w.esc
        ∧ (p.normalise v).Host = p.domainHost
        ∧ ((p.normalise v).Scheme = "http" ∨ (p.normalise v).Scheme = "https")
  | [], mLinks, l, h => Or.inl h
  | a :: rest, mLinks, l, h => by
    unfold Parser.anchor at h
    by_cases hk : a.Key = "href"
    · simp only [hk, if_true] at h
      cases hv : w.urlParse a.Val with
      | none =>
        simp only [hv] at h
        exact anchor_mem w p rest mLinks l h
      | some v =>
        simp only [hv] at h
        by_cases hf : (p.normalise v).Host = p.domainHost
            ∧ ((p.normalise v).Scheme = "http" ∨ (p.normalise v).Scheme = "https")
        · rw [if_pos hf] at h
          by_cases hm : (p.normalise v).String w.esc ∈ mLinks
          · rw [if_pos hm] at h
            exact Or.inl h
          · rw [if_neg hm] at h
            rcases List.mem_append.1 h with h1 | h1
            · exact Or.inl h1
            · exact Or.inr ⟨v, List.mem_singleton.1 h1, hf.1, hf.2⟩
        · rw [if_neg hf] at h
          exact Or.inl h
    · simp only [hk, if_false] at h
      exact anchor_mem w p rest mLinks l h

/-- The same for the tokenizer loop. -/
theorem tokens_mem (w : World) (p : Parser) :
    ∀ (body : List Token) (mLinks : List String) (l : String),
      l ∈ p.tokens w body mLinks → l ∈ mLinks ∨ ∃ v : URL, l = (p.normalise v).String w.esc
        ∧ (p.normalise v).Host = p.domainHost
        ∧ ((p.normalise v).Scheme = "http" ∨ (p.normalise v).Scheme = "https")
  | [], mLinks, l, h => Or.inl h
  | t :: rest, mLinks, l, h => by
    unfold Parser.tokens at h
    cases ht : t.Typ <;> simp only [ht] at h
    case ErrorToken => exact Or.inl h
    case StartTagToken =>
      by_cases hd : t.Data = "a"
      · rw [if_pos hd] at h
        rcases tokens_mem w p rest _ l h with h1 | h1
        · exact anchor_mem w p t.Attr mLinks l h1
        · exact Or.inr h1
      · rw [if_neg hd] at h
        exact tokens_mem w p rest mLinks l h
    all_goals exact tokens_mem w p rest mLinks l h

/-- The attribute loop adds nothing when the `href` it stops at does not fit. -/
theorem anchor_rejected (w : World) (p : Parser) (a : Attribute) (after : List Attribute)
    (v : URL) (mLinks : List String) (ha : a.Key = "href") (hv : w.urlParse a.Val = some v)
    (hf : ¬ ((p.normalise v).Host = p.domainHost
      ∧ ((p.normalise v).Scheme = "http" ∨ (p.normalise v).Scheme = "https"))) :
    ∀ before : List Attribute, (∀ b ∈ before, b.Key ≠ "href" ∨ w.urlParse b.Val = none) →
      p.anchor w (before ++ a :: after) mLinks = mLinks
  | [], _ => by
    rw [List.nil_append, Parser.anchor]
    simp only [ha, if_true, hv]
    rw [if_neg hf]
  | b :: before, hb => by
    have ih := anchor_rejected w p a after v mLinks ha hv hf before
      (fun x hx => hb x (List.mem_cons_of_mem _ hx))
    rw [List.cons_append, Parser.anchor]
    by_cases hk : b.Key = "href"
    · rcases hb b (List.mem_cons_self _ _) with h1 | h1
      · exact absurd hk h1
      · simp only [hk, if_true, h1]
        exact ih
    · simp only [hk, if_false]
      exact ih

/-- A token that leaves `mLinks` as it is can be dropped from the body. -/
theorem tokens_drop (w : World) (p : Parser) (t : Token) (post : List Token)
    (ht : ∀ mLinks, p.tokens w (t :: post) mLinks = p.tokens w post mLinks) :
    ∀ (pre : List Token) (mLinks : List String),
      p.tokens w (pre ++ t :: post) mLinks = p.tokens w (pre ++ post) mLinks
  | [], mLinks => ht mLinks
  | s :: pre, mLinks => by
    rw [List.cons_append, List.cons_append, Parser.tokens, Parser.tokens]
    cases s.Typ <;> simp only [tokens_drop w p t post ht pre]

/-- C4: every entry of `Page.Links` returned by `parse` is the rendering of a normalised
URL whose host is the domain host and whose scheme is `http` or `https`; an anchor
whose `href` normalises to another host or scheme adds nothing (the links are those of
the page without that anchor), and `parse` returns a page whenever the fetch delivers a
body, whatever the anchors of the body. -/
theorem parse_links_same_domain (w : World) (p : Parser) (u : String) :
    (∀ page, p.parse w u = .ok page → ∀ l ∈ page.Links,
      ∃ v : URL, l = (p.normalise v).String w.esc ∧ (p.normalise v).Host = p.domainHost
        ∧ ((p.normalise v).Scheme = "http" ∨ (p.normalise v).Scheme = "https"))
    ∧ (∀ (pre post : List Token) (t : Token) (before after : List Attribute) (a : Attribute)
        (v : URL) (mLinks : List String),
        t.Typ = .StartTagToken → t.Data = "a" → t.Attr = before ++ a :: after →
        (∀ b ∈ before, b.Key ≠ "href" ∨ w.urlParse b.Val = none) →
        a.Key = "href" → w.urlParse a.Val = some v →
        ¬ ((p.normalise v).Host = p.domainHost
          ∧ ((p.normalise v).Scheme = "http" ∨ (p.normalise v).Scheme = "https")) →
        p.tokens w (pre ++ t :: post) mLinks = p.tokens w (pre ++ post) mLinks)
    ∧ (∀ req body key, w.urlParse u = some req →
        p.clientDo w 10 req 0 u = some (.ok (body, key)) →
        p.parse w u = .ok ⟨key, w.rangeOrder (p.tokens w body [])⟩) := by
  refine ⟨?_, ?_, ?_⟩
  · intro page hpage l hl
    unfold Parser.parse at hpage
    cases hu : w.urlParse u with
    | none => simp [hu] at hpage
    | some req =>
      simp only [hu] at hpage
      cases hr : Parser.clientDo w p 10 req 0 u with
      | none => simp [hr] at hpage
      | some r =>
        cases r with
        | error err => simp [hr] at hpage
        | ok bk =>
          obtain ⟨body, key⟩ := bk
          simp only [hr, Except.ok.injEq] at hpage
          rw [← hpage] at hl
          have hl2 : l ∈ p.tokens w body [] := (w.rangeOrder_perm _).mem_iff.1 hl
          rcases tokens_mem w p body [] l hl2 with h1 | h1
          · exact absurd h1 (List.not_mem_nil l)
          · exact h1
  · intro pre post t before after a v mLinks ht hd hattr hb ha hv hf
    apply tokens_drop w p t post
    intro m
    rw [Parser.tokens]
    simp only [ht, hd, if_true, hattr, anchor_rejected w p a after v m ha hv hf before hb]
  · intro req body key hu hr
    exact parse_of_clientDo_ok w p u req body key hu hr

/-- C4 in the world `demoWorld`: of the two anchors of the page, `/baz` and
`https://g/x`, only the first is among the links. -/
theorem parse_links_same_domain_witness :
    (NewParser "http" "h").parse demoWorld "http://h" = .ok ⟨"http://h/bar", ["http://h/baz"]⟩
    ∧ ∀ l ∈ ["http://h/baz"], ∃ v : URL,
        l = ((NewParser "http" "h").normalise v).String demoWorld.esc
        ∧ ((NewParser "http" "h").normalise v).Host = (NewParser "http" "h").domainHost
        ∧ (((NewParser "http" "h").normalise v).Scheme = "http"
          ∨ ((NewParser "http" "h").normalise v).Scheme = "https") :=
  ⟨by rfl,
    (parse_links_same_domain demoWorld (NewParser "http" "h") "http://h").1
      ⟨"http://h/bar", ["http://h/baz"]⟩ (by rfl)⟩

/-! ## Theorems: the guard of `parsePage` -/

/-- C8: `parsePage(A, lvl)` calls the parser on `A` exactly when the crawler is not
cancelled, the depth allows it (the maximum depth is 0, or `lvl` is below it) and `A`
is no key of the sitemap: then the call on `A` is the next one recorded, and in every
other case `parsePage` returns the crawler as it was.  A cancelled crawler never calls
the parser, and a maximum depth of 0 blocks no level. -/
theorem parsePage_guard (parse : Parser → String → Except Error Page) (c : Crawler)
    (A : String) (lvl : Int) (fuel : Nat) :
    (c.proceeds A lvl = true ↔
      c.keepCrawling = true ∧ (c.maxDepth = 0 ∨ lvl < c.maxDepth) ∧ c.sitemap.index A = none)
    ∧ (c.proceeds A lvl = false → Crawler.parsePage parse (fuel + 1) c A lvl = some c)
    ∧ (c.proceeds A lvl = true →
        (∀ err, parse c.parser A = .error err →
          Crawler.parsePage parse (fuel + 1) c A lvl = some (c.calling A lvl))
        ∧ (∀ page, parse c.parser A = .ok page →
          Crawler.parsePage parse (fuel + 1) c A lvl
            = Crawler.rangeLinks (Crawler.parsePage parse fuel) page.Links (lvl + 1)
                ((c.calling A lvl).add page))
        ∧ ∀ c', Crawler.parsePage parse (fuel + 1) c A lvl = some c' →
            ∃ later, c'.parsed = c.parsed ++ (A, lvl) :: later)
    ∧ (c.keepCrawling = false → Crawler.parsePage parse (fuel + 1) c A lvl = some c)
    ∧ (c.maxDepth = 0 → c.proceeds A lvl = (c.keepCrawling && !c.known A))
    ∧ (0 < c.maxDepth → (c.maxDepth - lvl).toNat < fuel + 1 →
        ∃ c', Crawler.parsePage parse (fuel + 1) c A lvl = some c') := by
  have hskip : c.proceeds A lvl = false →
      Crawler.parsePage parse (fuel + 1) c A lvl = some c := by
    intro hg
    rw [Crawler.parsePage]
    simp [hg]
  have herr : c.proceeds A lvl = true → ∀ err, parse c.parser A = .error err →
      Crawler.parsePage parse (fuel + 1) c A lvl = some (c.calling A lvl) := by
    intro hg err he
    rw [Crawler.parsePage]
    simp only [hg, if_true, he]
  have hok : c.proceeds A lvl = true → ∀ page, parse c.parser A = .ok page →
      Crawler.parsePage parse (fuel + 1) c A lvl
        = Crawler.rangeLinks (Crawler.parsePage parse fuel) page.Links (lvl + 1)
            ((c.calling A lvl).add page) := by
    intro hg page hp
    rw [Crawler.parsePage]
    simp only [hg, if_true, hp]
  refine ⟨c.proceeds_iff A lvl, hskip, fun hg => ⟨herr hg, hok hg, ?_⟩, ?_, ?_, ?_⟩
  · intro c' hc'
    cases hp : parse c.parser A with
    | error err =>
      rw [herr hg err hp] at hc'
      exact ⟨[], (Option.some.inj hc') ▸ rfl⟩
    | ok page =>
      rw [hok hg page hp] at hc'
      obtain ⟨new, hnew⟩ := ((parsePage_basic parse fuel).2 _ _ _ c' hc').2.2
      refine ⟨new, ?_⟩
      rw [hnew]
      show (c.parsed ++ [(A, lvl)]) ++ new = c.parsed ++ (A, lvl) :: new
      simp
  · intro hk
    apply hskip
    simp [Crawler.proceeds, hk]
  · intro hd
    simp [Crawler.proceeds, hd]
  · intro hd hf
    exact parsePage_terminates parse c.maxDepth hd (fuel + 1) c A lvl rfl hf

/-- C8 at the cancelled crawler of the tests: `parsePage("", 1)` returns it as it is. -/
theorem parsePage_guard_witness :
    cancelledCrawler.keepCrawling = false
    ∧ Crawler.parsePage diamondSite 1 cancelledCrawler "" 1 = some cancelledCrawler :=
  ⟨by decide, (parsePage_guard diamondSite cancelledCrawler "" 1 0).2.2.2.1 (by decide)⟩

/-! ## Theorems: revisits -/

/-- C2, on the site `flakySite` with maximum depth 3: the crawl from the seed calls the
parser four times, twice on `http://h/a` whose fetch fails, while it discovers three
distinct addresses. -/
theorem parsePage_reparses_failed :
    ∃ c', Crawler.parsePage flakySite 4 (crawlerAt 3) "http://h" 0 = some c'
      ∧ c'.parsed = [("http://h", 0), ("http://h/a", 1), ("http://h/c", 1), ("http://h/a", 2)]
      ∧ c'.discovered.length = 3
      ∧ ¬ c'.parsed.length ≤ c'.discovered.length :=
  ⟨_, rfl, by decide, by decide, by decide⟩

/-- A call of the parser keeps `pagesStored` and `noReparse`. -/
theorem step_noReparse (parse : Parser → String → Except Error Page) (c : Crawler)
    (l : String) (lvl : Int) (hg : c.proceeds l lvl = true)
    (hinv : c.pagesStored parse ∧ c.noReparse parse) :
    (c.calling l lvl).noReparse parse
    ∧ (∀ err, parse c.parser l = .error err → (c.calling l lvl).pagesStored parse)
    ∧ (∀ page, parse c.parser l = .ok page →
        ((c.calling l lvl).add page).pagesStored parse
          ∧ ((c.calling l lvl).add page).noReparse parse) := by
  obtain ⟨hst, hno⟩ := hinv
  have hnk : c.known l = false :=
    (c.known_false_iff l).2 ((c.proceeds_iff l lvl).1 hg).2.2
  have hno' : (c.calling l lvl).noReparse parse := by
    show (c.parsed ++ [(l, lvl)]).Pairwise _
    rw [List.pairwise_append]
    refine ⟨hno, List.pairwise_singleton _ _, ?_⟩
    intro x hx y hy page hp
    rw [List.mem_singleton.1 hy]
    intro he
    have hk := hst x hx page hp
    rw [he] at hk
    exact absurd (hk.symm.trans hnk) (by simp)
  refine ⟨hno', ?_, ?_⟩
  · intro err he x hx page hp
    rcases List.mem_append.1 (show x ∈ c.parsed ++ [(l, lvl)] from hx) with h1 | h1
    · exact hst x h1 page hp
    · rw [List.mem_singleton.1 h1] at hp
      rw [show (c.calling l lvl).parser = c.parser from rfl, he] at hp
      exact absurd hp (by simp)
  · intro page hpage
    refine ⟨?_, hno'⟩
    intro x hx page' hp
    apply (Crawler.known_add _ page page'.Addr).2
    rcases List.mem_append.1 (show x ∈ c.parsed ++ [(l, lvl)] from hx) with h1 | h1
    · exact Or.inr (hst x h1 page' hp)
    · rw [List.mem_singleton.1 h1] at hp
      rw [show ((c.calling l lvl).add page).parser = c.parser from rfl, hpage] at hp
      exact Or.inl (by rw [← Except.ok.inj hp])

/-- `parsePage` keeps `pagesStored` and `noReparse`. -/
theorem parsePage_noReparse (parse : Parser → String → Except Error Page) (fuel : Nat) :
    ∀ c l lvl c', Crawler.parsePage parse fuel c l lvl = some c' →
      c.sameConfig c' ∧ (∀ k, c.known k = true → c'.known k = true)
        ∧ (c.pagesStored parse ∧ c.noReparse parse →
            c'.pagesStored parse ∧ c'.noReparse parse) := by
  refine (parsePage_induction parse
    (fun c _ _ c' => c.sameConfig c' ∧ (∀ k, c.known k = true → c'.known k = true)
        ∧ (c.pagesStored parse ∧ c.noReparse parse →
            c'.pagesStored parse ∧ c'.noReparse parse))
    (fun c _ _ c' => c.sameConfig c' ∧ (∀ k, c.known k = true → c'.known k = true)
        ∧ (c.pagesStored parse ∧ c.noReparse parse →
            c'.pagesStored parse ∧ c'.noReparse parse))
    ?_ ?_ ?_ ?_ ?_ ?_ fuel).1
  · intro c l lvl _
    exact ⟨c.sameConfig_refl, fun _ h => h, fun h => h⟩
  · intro c l lvl err hg he
    refine ⟨(c.sameConfig_step l lvl ⟨"", []⟩).1, fun _ h => h, fun hinv => ?_⟩
    have h := step_noReparse parse c l lvl hg hinv
    exact ⟨h.2.1 err he, h.1⟩
  · intro c l lvl page c' hg hp hq
    obtain ⟨hc, hm, hq⟩ := hq
    refine ⟨Crawler.sameConfig_trans (c.sameConfig_step l lvl page).2 hc, ?_, fun hinv => ?_⟩
    · intro k hk
      exact hm k ((Crawler.known_add _ page k).2 (Or.inr hk))
    · exact hq ((step_noReparse parse c l lvl hg hinv).2.2 page hp)
  · intro c lvl
    exact ⟨c.sameConfig_refl, fun _ h => h, fun h => h⟩
  · intro c link rest lvl c' _ hq
    exact hq
  · intro c link rest lvl c1 c' _ hp hq
    exact ⟨Crawler.sameConfig_trans hp.1 hq.1, fun k hk => hq.2.1 k (hp.2.1 k hk),
      fun hinv => hq.2.2 (hp.2.2 hinv)⟩

theorem Crawler.mem_keys_of_known (c : Crawler) (k : CanonicalURL) (h : c.known k = true) :
    k ∈ c.sitemap.keys := by
  obtain ⟨links, hl⟩ := (c.known_iff k).1 h
  unfold Sitemap.index at hl
  obtain ⟨e, he, _⟩ := Option.map_eq_some'.1 hl
  have hmem := List.mem_of_find?_eq_some he
  have hk : e.1 = k := by simpa using List.find?_some he
  exact List.mem_map.2 ⟨e, hmem, hk⟩

/-- C2, amended: in a crawl the parser is never called on an address under which the
page of an earlier call was stored; so when every fetch of the crawl succeeds and
returns its page under the address asked for, no address is parsed more than once and
the number of parser calls is at most the number of sitemap keys and of distinct
addresses discovered.  With a positive maximum depth the crawl returns. -/
theorem parsePage_keys_not_reparsed (parse : Parser → String → Except Error Page)
    (c : Crawler) (A : String) (lvl : Int) (fuel : Nat) (hl : c.parsed = []) :
    (∀ c', Crawler.parsePage parse fuel c A lvl = some c' →
      c'.parsed.Pairwise (fun x y => ∀ page, parse c.parser x.1 = .ok page → page.Addr ≠ y.1)
      ∧ ((∀ x ∈ c'.parsed, ∃ page, parse c.parser x.1 = .ok page ∧ page.Addr = x.1) →
          (c'.parsed.map Prod.fst).Nodup ∧ c'.parsed.length ≤ c'.sitemap.keys.length
            ∧ c'.parsed.length ≤ c'.discovered.length))
    ∧ (0 < c.maxDepth → (c.maxDepth - lvl).toNat < fuel →
        ∃ c', Crawler.parsePage parse fuel c A lvl = some c') := by
  refine ⟨?_, fun hd hf => parsePage_terminates parse c.maxDepth hd fuel c A lvl rfl hf⟩
  intro c' hc'
  obtain ⟨hcfg, _, hinv⟩ := parsePage_noReparse parse fuel c A lvl c' hc'
  have hinit : c.pagesStored parse ∧ c.noReparse parse := by
    unfold Crawler.pagesStored Crawler.noReparse
    rw [hl]
    exact ⟨fun x hx => absurd hx (List.not_mem_nil x), List.Pairwise.nil⟩
  obtain ⟨hst, hno⟩ := hinv hinit
  unfold Crawler.noReparse at hno
  unfold Crawler.pagesStored at hst
  rw [hcfg.2.2.1] at hno hst
  refine ⟨hno, ?_⟩
  intro hall
  have hnodup : (c'.parsed.map Prod.fst).Nodup := by
    unfold List.Nodup
    rw [List.pairwise_map]
    refine List.Pairwise.imp_of_mem ?_ hno
    intro x y hx _ hxy
    obtain ⟨page, hp, ha⟩ := hall x hx
    rw [← ha]
    exact hxy page hp
  have hsub : c'.parsed.map Prod.fst ⊆ c'.sitemap.keys := by
    intro k hk
    obtain ⟨x, hx, rfl⟩ := List.mem_map.1 hk
    obtain ⟨page, hp, ha⟩ := hall x hx
    exact c'.mem_keys_of_known x.1 (ha ▸ hst x hx page hp)
  have hsub2 : c'.parsed.map Prod.fst ⊆ c'.discovered := by
    intro k hk
    unfold Crawler.discovered
    rw [List.mem_dedup]
    exact List.mem_cons_of_mem _ (List.mem_append_left _ (hsub hk))
  refine ⟨hnodup, ?_, ?_⟩
  · have := (List.subperm_of_subset hnodup hsub).length_le
    rwa [List.length_map] at this
  · have := (List.subperm_of_subset hnodup hsub2).length_le
    rwa [List.length_map] at this

/-- C2, amended, on the four-page site with maximum depth 3. -/
theorem parsePage_keys_not_reparsed_witness :
    (crawlerAt 3).parsed = [] ∧ 0 < (crawlerAt 3).maxDepth
    ∧ ((crawlerAt 3).maxDepth - 0).toNat < 4
    ∧ ∃ c', Crawler.parsePage diamondSite 4 (crawlerAt 3) "http://h" 0 = some c' :=
  ⟨by decide, by decide, by decide,
    (parsePage_keys_not_reparsed diamondSite (crawlerAt 3) "http://h" 0 4 (by decide)).2
      (by decide) (by decide)⟩

/-! ## Theorems: coverage -/

/-- The addresses reached by chains of links from an address of a list that is closed
under the links of its pages are in the list. -/
theorem LinkChain.mem_closed {fetch : String → Except Error Page} (R : List String)
    (hclosed : ∀ a ∈ R, ∀ page, fetch a = .ok page → ∀ l ∈ page.Links, l ∈ R)
    {a b : String} {n : Nat} (ha : a ∈ R) (h : LinkChain fetch a n b) : b ∈ R := by
  induction h with
  | here => exact ha
  | next _ hf hm ih => exact hclosed _ ih _ hf _ hm

/-- In the world `diamondWorld` every address that chains of links reach from the seed
is fetched successfully under the address asked for. -/
theorem diamondWorld_fetches (n : Nat) (a : String)
    (h : LinkChain (Parser.parse diamondWorld (NewParser "http" "h")) "http://h" n a) :
    ∃ page, Parser.parse diamondWorld (NewParser "http" "h") a = .ok page ∧ page.Addr = a := by
  have hclosed : ∀ x ∈ ["http://h", "http://h/a", "http://h/b", "http://h/c"], ∀ page,
      Parser.parse diamondWorld (NewParser "http" "h") x = .ok page →
      ∀ l ∈ page.Links, l ∈ ["http://h", "http://h/a", "http://h/b", "http://h/c"] := by
    intro x hx page hp l hl
    simp only [List.mem_cons, List.mem_singleton, List.not_mem_nil, or_false] at hx
    rcases hx with rfl | rfl | rfl | rfl
    · have e : Parser.parse diamondWorld (NewParser "http" "h") "http://h"
          = .ok ⟨"http://h", ["http://h/a", "http://h/b"]⟩ := rfl
      rw [e] at hp
      rw [← Except.ok.inj hp] at hl
      simp only [List.mem_cons, List.mem_singleton, List.not_mem_nil, or_false] at hl ⊢
      rcases hl with rfl | rfl <;> simp
    · have e : Parser.parse diamondWorld (NewParser "http" "h") "http://h/a"
          = .ok ⟨"http://h/a", ["http://h/b"]⟩ := rfl
      rw [e] at hp
      rw [← Except.ok.inj hp] at hl
      simp only [List.mem_cons, List.mem_singleton, List.not_mem_nil, or_false] at hl ⊢
      rcases hl with rfl
      simp
    · have e : Parser.parse diamondWorld (NewParser "http" "h") "http://h/b"
          = .ok ⟨"http://h/b", ["http://h/c"]⟩ := rfl
      rw [e] at hp
      rw [← Except.ok.inj hp] at hl
      simp only [List.mem_cons, List.mem_singleton, List.not_mem_nil, or_false] at hl ⊢
      rcases hl with rfl
      simp
    · have e : Parser.parse diamondWorld (NewParser "http" "h") "http://h/c"
          = .ok ⟨"http://h/c", []⟩ := rfl
      rw [e] at hp
      rw [← Except.ok.inj hp] at hl
      exact absurd hl (List.not_mem_nil l)
  have hmem := LinkChain.mem_closed _ hclosed (by simp) h
  simp only [List.mem_cons, List.mem_singleton, List.not_mem_nil, or_false] at hmem
  rcases hmem with rfl | rfl | rfl | rfl <;> exact ⟨_, rfl, rfl⟩

/-- C3, in the world `diamondWorld` with maximum depth 3: every address that chains of
links reach from the seed is fetched successfully under the address asked for, and
`http://h/c` is two links from the seed (through `/b`), yet after the crawl it is no key:
`/b` is first parsed at level 2, through `/a`, and is known when the seed's own link to
it comes up. -/
theorem parsePage_misses_near_page :
    (∀ (n : Nat) (a : String),
      LinkChain (Parser.parse diamondWorld (crawlerAt 3).parser) "http://h" n a →
      ∃ page, Parser.parse diamondWorld (crawlerAt 3).parser a = .ok page ∧ page.Addr = a)
    ∧ LinkChain (Parser.parse diamondWorld (crawlerAt 3).parser) "http://h" 2 "http://h/c"
    ∧ (2 : Int) < (crawlerAt 3).maxDepth
    ∧ ∃ c', Crawler.parsePage (Parser.parse diamondWorld) 4 (crawlerAt 3) "http://h" 0 = some c'
        ∧ c'.known "http://h/c" = false
        ∧ c'.sitemap.keys = ["http://h/b", "http://h/a", "http://h"] := by
  refine ⟨diamondWorld_fetches, ?_, by decide, _, rfl, by decide, by decide⟩
  exact @LinkChain.next _ "http://h" "http://h/b" "http://h/c" 1 ⟨"http://h/b", ["http://h/c"]⟩
    (@LinkChain.next _ "http://h" "http://h" "http://h/b" 0
      ⟨"http://h", ["http://h/a", "http://h/b"]⟩ (.here _) rfl (by decide))
    rfl (by decide)

theorem Crawler.linksKnown_mono (parse : Parser → String → Except Error Page)
    {c c' : Crawler} (d : Int) (new : List (String × Int)) (hc : c.sameConfig c')
    (hm : ∀ k, c.known k = true → c'.known k = true) (h : c.linksKnown parse d new) :
    c'.linksKnown parse d new := by
  intro a k hak hk page hp link hlink
  rw [hc.2.2.1] at hp
  exact hm link (h a k hak hk page hp link hlink)

/-- When every address within the levels left is fetched successfully under the address
asked for, a call of `parsePage` below the maximum depth leaves its address a key, and
the links of every page it parses below level `d - 1` are keys when it returns. -/
theorem parsePage_covers (parse : Parser → String → Except Error Page) (fuel : Nat) :
    (∀ c l lvl c', Crawler.parsePage parse fuel c l lvl = some c' →
      c.sameConfig c' ∧ (∀ k, c.known k = true → c'.known k = true)
      ∧ (c.keepCrawling = true → 0 < c.maxDepth →
          c.fetchesNear parse l lvl →
          (lvl < c.maxDepth → c'.known l = true)
          ∧ ∃ new, c'.parsed = c.parsed ++ new
              ∧ (c.known l = false → lvl < c.maxDepth → (l, lvl) ∈ new)
              ∧ c'.linksKnown parse c.maxDepth new))
    ∧ (∀ links c lvl c',
        Crawler.rangeLinks (Crawler.parsePage parse fuel) links lvl c = some c' →
        c.sameConfig c' ∧ (∀ k, c.known k = true → c'.known k = true)
        ∧ (c.keepCrawling = true → 0 < c.maxDepth →
            (∀ link ∈ links, c.fetchesNear parse link lvl) →
            (lvl < c.maxDepth → ∀ link ∈ links, c'.known link = true)
            ∧ ∃ new, c'.parsed = c.parsed ++ new ∧ c'.linksKnown parse c.maxDepth new)) := by
  refine parsePage_induction parse
    (fun c l lvl c' => c.sameConfig c' ∧ (∀ k, c.known k = true → c'.known k = true)
      ∧ (c.keepCrawling = true → 0 < c.maxDepth →
          c.fetchesNear parse l lvl →
          (lvl < c.maxDepth → c'.known l = true)
          ∧ ∃ new, c'.parsed = c.parsed ++ new
              ∧ (c.known l = false → lvl < c.maxDepth → (l, lvl) ∈ new)
              ∧ c'.linksKnown parse c.maxDepth new))
    (fun c links lvl c' => c.sameConfig c' ∧ (∀ k, c.known k = true → c'.known k = true)
      ∧ (c.keepCrawling = true → 0 < c.maxDepth →
          (∀ link ∈ links, c.fetchesNear parse link lvl) →
          (lvl < c.maxDepth → ∀ link ∈ links, c'.known link = true)
          ∧ ∃ new, c'.parsed = c.parsed ++ new ∧ c'.linksKnown parse c.maxDepth new))
    ?_ ?_ ?_ ?_ ?_ ?_ fuel
  · intro c l lvl hg
    refine ⟨c.sameConfig_refl, fun _ h => h, fun hk hd _ => ?_⟩
    have hkn : lvl < c.maxDepth → c.known l = true := by
      intro hlvl
      cases hkl : c.known l with
      | true => rfl
      | false =>
        have : c.proceeds l lvl = true := by
          simp [Crawler.proceeds, hk, hlvl, hkl]
        rw [hg] at this
        exact absurd this (by simp)
    refine ⟨hkn, [], by simp, ?_, ?_⟩
    · intro hkl hlvl
      rw [hkn hlvl] at hkl
      exact absurd hkl (by simp)
    · intro a k hak
      exact absurd hak (List.not_mem_nil _)
  · intro c l lvl err hg he
    refine ⟨(c.sameConfig_step l lvl ⟨"", []⟩).1, fun _ h => h, fun _ hd hsite => ?_⟩
    have hlvl : lvl < c.maxDepth := by
      rcases ((c.proceeds_iff l lvl).1 hg).2.1 with h0 | h1
      · omega
      · exact h1
    obtain ⟨page, hp, _⟩ := hsite 0 l (LinkChain.here l) (by simp only [Nat.cast_zero]; omega)
    rw [he] at hp
    exact absurd hp (by simp)
  · intro c l lvl page c' hg hp hq
    obtain ⟨hc, hm, hq⟩ := hq
    have hcfg := Crawler.sameConfig_trans (c.sameConfig_step l lvl page).2 hc
    refine ⟨hcfg, ?_, fun hk hd hsite => ?_⟩
    · intro k hkn
      exact hm k ((Crawler.known_add _ page k).2 (Or.inr hkn))
    · have hlvl : lvl < c.maxDepth := by
        rcases ((c.proceeds_iff l lvl).1 hg).2.1 with h0 | h1
        · omega
        · exact h1
      have hnear : ∀ link ∈ page.Links,
          ((c.calling l lvl).add page).fetchesNear parse link (lvl + 1) := by
        intro link hlink n a hch hn
        have hn' : (n : Int) < c.maxDepth - (lvl + 1) := hn
        exact hsite (n + 1) a (LinkChain.cons hp hlink hch) (by push_cast; omega)
      obtain ⟨hlinks, new, hnew, hlk⟩ := hq hk hd hnear
      have haddr : page.Addr = l := by
        obtain ⟨page0, hp0, ha0⟩ :=
          hsite 0 l (LinkChain.here l) (by simp only [Nat.cast_zero]; omega)
        rw [hp] at hp0
        rw [Except.ok.inj hp0]
        exact ha0
      have hl : c'.known l = true :=
        hm l ((Crawler.known_add _ page l).2 (Or.inl haddr.symm))
      refine ⟨fun _ => hl, (l, lvl) :: new, ?_, fun _ _ => List.mem_cons_self _ _, ?_⟩
      · rw [hnew]
        show (c.parsed ++ [(l, lvl)]) ++ new = c.parsed ++ (l, lvl) :: new
        simp
      · intro a k hak hk1 page1 hp1 link hlink
        rcases List.mem_cons.1 hak with h1 | h1
        · have ha : a = l := (Prod.mk.inj h1).1
          have hkl : k = lvl := (Prod.mk.inj h1).2
          rw [hcfg.2.2.1, ha, hp] at hp1
          rw [← Except.ok.inj hp1] at hlink
          exact hlinks (by rw [← hkl]; exact hk1) link hlink
        · exact hlk a k h1 hk1 page1 hp1 link hlink
  · intro c lvl
    refine ⟨c.sameConfig_refl, fun _ h => h, fun _ _ _ => ?_⟩
    refine ⟨fun _ link hl => absurd hl (List.not_mem_nil _), [], by simp, ?_⟩
    intro a k hak
    exact absurd hak (List.not_mem_nil _)
  · intro c link rest lvl c' hkn hq
    obtain ⟨hc, hm, hq⟩ := hq
    refine ⟨hc, hm, fun hk hd hsite => ?_⟩
    obtain ⟨hlinks, hrest⟩ := hq hk hd (fun x hx => hsite x (List.mem_cons_of_mem _ hx))
    refine ⟨fun hlvl x hx => ?_, hrest⟩
    rcases List.mem_cons.1 hx with h1 | h1
    · rw [h1]
      exact hm link hkn
    · exact hlinks hlvl x h1
  · intro c link rest lvl c1 c' _ hp hq
    obtain ⟨hc1, hm1, hp⟩ := hp
    obtain ⟨hc2, hm2, hq⟩ := hq
    refine ⟨Crawler.sameConfig_trans hc1 hc2, fun k hk => hm2 k (hm1 k hk),
      fun hk hd hsite => ?_⟩
    obtain ⟨hlink, new1, hn1, _, hlk1⟩ := hp hk hd (hsite link (List.mem_cons_self _ _))
    have hnear : ∀ x ∈ rest, c1.fetchesNear parse x lvl := by
      intro x hx
      unfold Crawler.fetchesNear
      rw [hc1.2.1, hc1.2.2.1]
      exact hsite x (List.mem_cons_of_mem _ hx)
    obtain ⟨hrest, new2, hn2, hlk2⟩ := hq (hc1.2.2.2.trans hk) (by rw [hc1.2.1]; exact hd)
      hnear
    rw [hc1.2.1] at hrest hlk2
    refine ⟨fun hlvl x hx => ?_, new1 ++ new2, by rw [hn2, hn1, List.append_assoc], ?_⟩
    · rcases List.mem_cons.1 hx with h1 | h1
      · rw [h1]
        exact hm2 link (hlink hlvl)
      · exact hrest hlvl x h1
    · intro a k hak hk1 page hpg x hx
      rcases List.mem_append.1 hak with h1 | h1
      · exact (Crawler.linksKnown_mono parse c.maxDepth new1 hc2 hm2 hlk1) a k h1 hk1 page hpg x hx
      · exact hlk2 a k h1 hk1 page hpg x hx

theorem LinkChain.zero_eq {fetch : String → Except Error Page} {a b : String}
    (h : LinkChain fetch a 0 b) : b = a := by
  cases h
  rfl

theorem LinkChain.one_link {fetch : String → Except Error Page} {a b : String}
    (h : LinkChain fetch a 1 b) : ∃ page, fetch a = .ok page ∧ b ∈ page.Links := by
  cases h with
  | next hc hf hm =>
    have := LinkChain.zero_eq hc
    subst this
    exact ⟨_, hf, hm⟩

/-- C3, amended: for every maximum depth `d > 0` and every site in which every page
within fewer than `d` links of the seed is fetched successfully and returned under the
address asked for, the crawl from the seed on an empty sitemap returns, the seed is a
key, every link of a page that was parsed at a level below `d - 1` is a key, and so
every page reached from the seed by a chain of fewer than `d` and fewer than 2 links is
a key. -/
theorem parsePage_covers_near_links (parse : Parser → String → Except Error Page)
    (c : Crawler) (seed : String) (fuel : Nat) (hd : 0 < c.maxDepth)
    (hk : c.keepCrawling = true) (hs : c.sitemap = []) (hl : c.parsed = [])
    (hsite : ∀ (n : Nat) (a : String), LinkChain (parse c.parser) seed n a →
      (n : Int) < c.maxDepth → ∃ page, parse c.parser a = .ok page ∧ page.Addr = a)
    (hfuel : (c.maxDepth - 0).toNat < fuel) :
    ∃ c', Crawler.parsePage parse fuel c seed 0 = some c'
      ∧ c'.known seed = true
      ∧ (∀ a k, (a, k) ∈ c'.parsed → k + 1 < c.maxDepth → ∀ page,
          parse c.parser a = .ok page → ∀ link ∈ page.Links, c'.known link = true)
      ∧ (∀ (n : Nat) (B : String), LinkChain (parse c.parser) seed n B →
          (n : Int) < c.maxDepth → n < 2 → c'.known B = true) := by
  obtain ⟨c', hc'⟩ := parsePage_terminates parse c.maxDepth hd fuel c seed 0 rfl hfuel
  obtain ⟨hcfg, _, hcov⟩ := (parsePage_covers parse fuel).1 c seed 0 c' hc'
  have hnear : c.fetchesNear parse seed 0 := by
    intro n a hch hn
    exact hsite n a hch (by simpa using hn)
  obtain ⟨hseed, new, hnew, hfirst, hlk⟩ := hcov hk hd hnear
  rw [hl, List.nil_append] at hnew
  have hunknown : c.known seed = false := by
    simp [Crawler.known, hs, Sitemap.index]
  have hall : ∀ a k, (a, k) ∈ c'.parsed → k + 1 < c.maxDepth → ∀ page,
      parse c.parser a = .ok page → ∀ link ∈ page.Links, c'.known link = true := by
    intro a k hak hk1 page hp link hlink
    rw [hnew] at hak
    rw [← hcfg.2.2.1] at hp
    exact hlk a k hak hk1 page hp link hlink
  refine ⟨c', hc', hseed hd, hall, ?_⟩
  intro n B hch hn h2
  have hcases : n = 0 ∨ n = 1 := by omega
  rcases hcases with h0 | h1
  · subst h0
    rw [LinkChain.zero_eq hch]
    exact hseed hd
  · subst h1
    obtain ⟨page, hp, hB⟩ := LinkChain.one_link hch
    have hmem : (seed, (0 : Int)) ∈ c'.parsed := by
      rw [hnew]
      exact hfirst hunknown hd
    exact hall seed 0 hmem (by simpa using hn) page hp B hB

/-- C3, amended, in the world `diamondWorld` with maximum depth 3, where `url.Parse`
rejects every string but seven: the crawl returns, the seed is a key and so are the
pages it links to. -/
theorem parsePage_covers_near_links_witness :
    0 < (crawlerAt 3).maxDepth ∧ (crawlerAt 3).keepCrawling = true
    ∧ (crawlerAt 3).sitemap = [] ∧ (crawlerAt 3).parsed = []
    ∧ (∀ (n : Nat) (a : String),
        LinkChain (Parser.parse diamondWorld (crawlerAt 3).parser) "http://h" n a →
        (n : Int) < (crawlerAt 3).maxDepth →
        ∃ page, Parser.parse diamondWorld (crawlerAt 3).parser a = .ok page ∧ page.Addr = a)
    ∧ ((crawlerAt 3).maxDepth - 0).toNat < 4
    ∧ diamondWorld.urlParse "%zz" = none
    ∧ ∃ c', Crawler.parsePage (Parser.parse diamondWorld) 4 (crawlerAt 3) "http://h" 0 = some c'
        ∧ c'.known "http://h" = true
        ∧ (∀ a k, (a, k) ∈ c'.parsed → k + 1 < (crawlerAt 3).maxDepth → ∀ page,
            Parser.parse diamondWorld (crawlerAt 3).parser a = .ok page →
            ∀ link ∈ page.Links, c'.known link = true)
        ∧ (∀ (n : Nat) (B : String),
            LinkChain (Parser.parse diamondWorld (crawlerAt 3).parser) "http://h" n B →
            (n : Int) < (crawlerAt 3).maxDepth → n < 2 → c'.known B = true) :=
  ⟨by decide, by decide, by decide, by decide, fun n a h _ => diamondWorld_fetches n a h,
    by decide, by decide,
    parsePage_covers_near_links (Parser.parse diamondWorld) (crawlerAt 3) "http://h" 4
      (by decide) (by decide) (by decide) (by decide)
      (fun n a h _ => diamondWorld_fetches n a h) (by decide)⟩

/-! ## Theorems: host and scheme -/

/-- C11: `normalise` sets the host to the domain's host when the URL has no host and the
scheme to the domain's scheme when the URL has no scheme, and leaves a host or a scheme
that the URL has as it is. -/
theorem normalise_host_scheme (p : Parser) (u : URL) :
    (u.Host = "" → (p.normalise u).Host = p.domainHost)
    ∧ (u.Scheme = "" → (p.normalise u).Scheme = p.domainScheme)
    ∧ (u.Host ≠ "" → (p.normalise u).Host = u.Host)
    ∧ (u.Scheme ≠ "" → (p.normalise u).Scheme = u.Scheme) := by
  rw [normalise_eq]
  refine ⟨fun h => ?_, fun h => ?_, fun h => ?_, fun h => ?_⟩
  · simp [h]
  · simp [h]
  · simp [h]
  · simp [h]

/-- C11 on two rows of `TestNormalise`: `foo/bar` gets the scheme and the host of the
domain `https://google.com`, and `http://google.com/foo` keeps its own. -/
theorem normalise_host_scheme_witness :
    ((NewParser "https" "google.com").normalise { Path := "foo/bar" }).Host = "google.com"
    ∧ ((NewParser "https" "google.com").normalise { Path := "foo/bar" }).Scheme = "https"
    ∧ ((NewParser "https" "google.com").normalise
        { Scheme := "http", Host := "google.com", Path := "/foo" }).Host = "google.com"
    ∧ ((NewParser "https" "google.com").normalise
        { Scheme := "http", Host := "google.com", Path := "/foo" }).Scheme = "http" :=
  ⟨(normalise_host_scheme (NewParser "https" "google.com") { Path := "foo/bar" }).1 (by decide),
    (normalise_host_scheme (NewParser "https" "google.com") { Path := "foo/bar" }).2.1
      (by decide),
    (normalise_host_scheme (NewParser "https" "google.com")
      { Scheme := "http", Host := "google.com", Path := "/foo" }).2.2.1 (by decide),
    (normalise_host_scheme (NewParser "https" "google.com")
      { Scheme := "http", Host := "google.com", Path := "/foo" }).2.2.2 (by decide)⟩

/-! ## Theorems: termination -/

/-- The loop returns the same under a visit function that returns at least as often. -/
theorem rangeLinks_mono (visit visit' : Crawler → String → Int → Option Crawler)
    (h : ∀ c l lvl c', visit c l lvl = some c' → visit' c l lvl = some c') :
    ∀ (links : List String) (lvl : Int) (c c' : Crawler),
      Crawler.rangeLinks visit links lvl c = some c' →
      Crawler.rangeLinks visit' links lvl c = some c'
  | [], _, _, _, hr => hr
  | link :: rest, lvl, c, c', hr => by
    unfold Crawler.rangeLinks at hr ⊢
    cases hk : c.known link with
    | true =>
      simp only [hk, Bool.not_true, Bool.false_eq_true, if_false] at hr ⊢
      exact rangeLinks_mono visit visit' h rest lvl c c' hr
    | false =>
      simp only [hk, Bool.not_false, if_true] at hr ⊢
      cases hv : visit c link lvl with
      | none => simp [hv] at hr
      | some c1 =>
        simp only [hv] at hr
        simp only [h c link lvl c1 hv]
        exact rangeLinks_mono visit visit' h rest lvl c1 c' hr

/-- More fuel does not change what `parsePage` returns. -/
theorem parsePage_fuel_succ (parse : Parser → String → Except Error Page) :
    ∀ (fuel : Nat) (c : Crawler) (l : String) (lvl : Int) (c' : Crawler),
      Crawler.parsePage parse fuel c l lvl = some c' →
      Crawler.parsePage parse (fuel + 1) c l lvl = some c'
  | 0, _, _, _, _, h => by simp [Crawler.parsePage] at h
  | fuel + 1, c, l, lvl, c', h => by
    rw [Crawler.parsePage] at h ⊢
    cases hg : c.proceeds l lvl with
    | false => simpa [hg] using h
    | true =>
      simp only [hg, if_true] at h ⊢
      cases hp : parse c.parser l with
      | error err => simpa [hp] using h
      | ok page =>
        simp only [hp] at h ⊢
        exact rangeLinks_mono _ _ (parsePage_fuel_succ parse fuel) page.Links _ _ c' h

theorem parsePage_fuel_le (parse : Parser → String → Except Error Page) (c : Crawler)
    (l : String) (lvl : Int) (c' : Crawler) (fuel : Nat)
    (h : Crawler.parsePage parse fuel c l lvl = some c') :
    ∀ more : Nat, Crawler.parsePage parse (fuel + more) c l lvl = some c'
  | 0 => h
  | more + 1 => parsePage_fuel_succ parse _ c l lvl c' (parsePage_fuel_le parse c l lvl c' fuel h more)

/-- The parser calls that `parsePage(l, lvl)` makes are at the levels from `lvl` on and,
with a maximum depth other than 0, below the maximum depth. -/
theorem parsePage_levels (parse : Parser → String → Except Error Page) (fuel : Nat) :
    ∀ c l lvl c', Crawler.parsePage parse fuel c l lvl = some c' →
      c.sameConfig c' ∧ ∃ new, c'.parsed = c.parsed ++ new
        ∧ ∀ a k, (a, k) ∈ new → lvl ≤ k ∧ (c.maxDepth ≠ 0 → k < c.maxDepth) := by
  refine (parsePage_induction parse
    (fun c _ lvl c' => c.sameConfig c' ∧ ∃ new, c'.parsed = c.parsed ++ new
        ∧ ∀ a k, (a, k) ∈ new → lvl ≤ k ∧ (c.maxDepth ≠ 0 → k < c.maxDepth))
    (fun c _ lvl c' => c.sameConfig c' ∧ ∃ new, c'.parsed = c.parsed ++ new
        ∧ ∀ a k, (a, k) ∈ new → lvl ≤ k + 1 ∧ (c.maxDepth ≠ 0 → k < c.maxDepth))
    ?_ ?_ ?_ ?_ ?_ ?_ fuel).1
  · intro c l lvl _
    exact ⟨c.sameConfig_refl, [], by simp, fun a k h => absurd h (List.not_mem_nil _)⟩
  · intro c l lvl err hg _
    refine ⟨(c.sameConfig_step l lvl ⟨"", []⟩).1, [(l, lvl)], rfl, ?_⟩
    intro a k hak
    rw [List.mem_singleton] at hak
    rw [(Prod.mk.inj hak).2]
    refine ⟨le_refl _, fun hne => ?_⟩
    rcases ((c.proceeds_iff l lvl).1 hg).2.1 with h0 | h1
    · exact absurd h0 hne
    · exact h1
  · intro c l lvl page c' hg _ hq
    obtain ⟨hc, new, hnew, hlv⟩ := hq
    refine ⟨Crawler.sameConfig_trans (c.sameConfig_step l lvl page).2 hc, (l, lvl) :: new, ?_, ?_⟩
    · rw [hnew]
      show (c.parsed ++ [(l, lvl)]) ++ new = c.parsed ++ (l, lvl) :: new
      simp
    · intro a k hak
      rcases List.mem_cons.1 hak with h1 | h1
      · rw [(Prod.mk.inj h1).2]
        refine ⟨le_refl _, fun hne => ?_⟩
        rcases ((c.proceeds_iff l lvl).1 hg).2.1 with h0 | h2
        · exact absurd h0 hne
        · exact h2
      · obtain ⟨h2, h3⟩ := hlv a k h1
        exact ⟨by omega, h3⟩
  · intro c lvl
    exact ⟨c.sameConfig_refl, [], by simp, fun a k h => absurd h (List.not_mem_nil _)⟩
  · intro c link rest lvl c' _ hq
    exact hq
  · intro c link rest lvl c1 c' _ hp hq
    obtain ⟨hc1, new1, hn1, hl1⟩ := hp
    obtain ⟨hc2, new2, hn2, hl2⟩ := hq
    refine ⟨Crawler.sameConfig_trans hc1 hc2, new1 ++ new2,
      by rw [hn2, hn1, List.append_assoc], ?_⟩
    intro a k hak
    rcases List.mem_append.1 hak with h1 | h1
    · obtain ⟨h2, h3⟩ := hl1 a k h1
      exact ⟨by omega, h3⟩
    · rw [hc1.2.1] at hl2
      exact hl2 a k h1

/-- C16: with a maximum depth `d > 0`, for every start level and every page-fetch
function, `parsePage(A, lvl)` terminates: the call and `d - lvl` nested levels of
recursion are enough for it to return, more fuel returns the same, and every parser call
it makes is at a level from `lvl` to `d - 1`. -/
theorem parsePage_nesting (parse : Parser → String → Except Error Page) (c : Crawler)
    (A : String) (lvl : Int) (hd : 0 < c.maxDepth) :
    ∃ c', Crawler.parsePage parse ((c.maxDepth - lvl).toNat + 1) c A lvl = some c'
      ∧ (∀ fuel, (c.maxDepth - lvl).toNat < fuel →
          Crawler.parsePage parse fuel c A lvl = some c')
      ∧ ∃ new, c'.parsed = c.parsed ++ new
          ∧ ∀ a k, (a, k) ∈ new → lvl ≤ k ∧ k < c.maxDepth := by
  obtain ⟨c', hc'⟩ := parsePage_terminates parse c.maxDepth hd
    ((c.maxDepth - lvl).toNat + 1) c A lvl rfl (by omega)
  refine ⟨c', hc', ?_, ?_⟩
  · intro fuel hf
    have h := parsePage_fuel_le parse c A lvl c' _ hc' (fuel - ((c.maxDepth - lvl).toNat + 1))
    have he : (c.maxDepth - lvl).toNat + 1 + (fuel - ((c.maxDepth - lvl).toNat + 1)) = fuel := by
      omega
    rw [he] at h
    exact h
  · obtain ⟨_, new, hnew, hlv⟩ := parsePage_levels parse _ c A lvl c' hc'
    exact ⟨new, hnew, fun a k hak => ⟨(hlv a k hak).1, (hlv a k hak).2 (by omega)⟩⟩

/-- C16 on the four-page site with maximum depth 3, from level 0: fuel 4 is enough. -/
theorem parsePage_nesting_witness :
    0 < (crawlerAt 3).maxDepth
    ∧ ∃ c', Crawler.parsePage diamondSite (((crawlerAt 3).maxDepth - 0).toNat + 1)
          (crawlerAt 3) "http://h" 0 = some c'
      ∧ (∀ fuel, ((crawlerAt 3).maxDepth - 0).toNat < fuel →
          Crawler.parsePage diamondSite fuel (crawlerAt 3) "http://h" 0 = some c')
      ∧ ∃ new, c'.parsed = (crawlerAt 3).parsed ++ new
          ∧ ∀ a k, (a, k) ∈ new → 0 ≤ k ∧ k < (crawlerAt 3).maxDepth :=
  ⟨by decide, parsePage_nesting diamondSite (crawlerAt 3) "http://h" 0 (by decide)⟩

/-! ## Theorems: duplicates and attributes -/

/-- The attribute loop keeps `mLinks` free of duplicates. -/
theorem anchor_nodup (w : World) (p : Parser) :
    ∀ (attrs : List Attribute) (mLinks : List String), mLinks.Nodup →
      (p.anchor w attrs mLinks).Nodup
  | [], _, h => h
  | a :: rest, mLinks, h => by
    unfold Parser.anchor
    by_cases hk : a.Key = "href"
    · simp only [hk, if_true]
      cases hv : w.urlParse a.Val with
      | none => exact anchor_nodup w p rest mLinks h
      | some v =>
        simp only
        split_ifs with hf hm
        · exact h
        · rw [List.nodup_append]
          exact ⟨h, List.nodup_singleton _, by simpa using hm⟩
        · exact h
    · simp only [hk, if_false]
      exact anchor_nodup w p rest mLinks h

/-- The tokenizer loop keeps `mLinks` free of duplicates. -/
theorem tokens_nodup (w : World) (p : Parser) :
    ∀ (body : List Token) (mLinks : List String), mLinks.Nodup →
      (p.tokens w body mLinks).Nodup
  | [], _, h => h
  | t :: rest, mLinks, h => by
    unfold Parser.tokens
    cases ht : t.Typ <;> simp only
    case ErrorToken => exact h
    case StartTagToken =>
      split_ifs
      · exact tokens_nodup w p rest _ (anchor_nodup w p t.Attr mLinks h)
      · exact tokens_nodup w p rest mLinks h
    all_goals exact tokens_nodup w p rest mLinks h

/-- C14: the `Page.Links` that `parse` returns has no duplicate entries, whatever the
anchors of the page. -/
theorem parse_links_nodup (w : World) (p : Parser) (u : String) (page : Page)
    (h : p.parse w u = .ok page) : page.Links.Nodup := by
  unfold Parser.parse at h
  cases hu : w.urlParse u with
  | none => simp [hu] at h
  | some req =>
    simp only [hu] at h
    cases hr : Parser.clientDo w p 10 req 0 u with
    | none => simp [hr] at h
    | some r =>
      cases r with
      | error err => simp [hr] at h
      | ok bk =>
        obtain ⟨body, key⟩ := bk
        simp only [hr, Except.ok.injEq] at h
        rw [← h]
        exact (w.rangeOrder_perm _).nodup_iff.2 (tokens_nodup w p body [] List.nodup_nil)

/-- C14 in the world `queryWorld`: the page behind `/a` has three anchors to `/x` and
one link. -/
theorem parse_links_nodup_witness :
    (NewParser "http" "h").parse queryWorld "http://h/a" = .ok ⟨"http://h/b", ["http://h/x"]⟩
    ∧ ["http://h/x"].Nodup :=
  ⟨by rfl,
    parse_links_nodup queryWorld (NewParser "http" "h") "http://h/a"
      ⟨"http://h/b", ["http://h/x"]⟩ (by rfl)⟩

/-- A tag that repeats the key `href`, with the attributes `href="%zz"` and `href="/x"`:
`url.Parse` rejects the first `href`, the loop goes on to the second, and the link
`http://h/x` is found; with the attributes after the first `href` removed no link is
found. -/
theorem tokens_second_href :
    queryWorld.urlParse "%zz" = none
    ∧ (NewParser "http" "h").tokens queryWorld
        [{ Typ := .StartTagToken, Data := "a",
           Attr := [{ Key := "href", Val := "%zz" }, { Key := "href", Val := "/x" }] }] []
      = ["http://h/x"]
    ∧ (NewParser "http" "h").tokens queryWorld
        ([{ Typ := .StartTagToken, Data := "a",
            Attr := [{ Key := "href", Val := "%zz" }, { Key := "href", Val := "/x" }] }].map
          Token.upToHref) []
      = [] := by
  decide

/-- The attribute loop does not look beyond the first `href` that `url.Parse` accepts. -/
theorem anchor_keepUpTo (w : World) (p : Parser) :
    ∀ (attrs : List Attribute) (mLinks : List String),
      p.anchor w (keepUpTo (fun a => a.Key = "href" ∧ (w.urlParse a.Val).isSome) attrs) mLinks
        = p.anchor w attrs mLinks
  | [], _ => rfl
  | a :: rest, mLinks => by
    unfold keepUpTo
    by_cases hk : a.Key = "href"
    · cases hv : w.urlParse a.Val with
      | none =>
        simp only [hk, hv, Option.isSome_none, Bool.false_eq_true, and_false, decide_False,
          if_false]
        rw [Parser.anchor, Parser.anchor]
        simp only [hk, if_true, hv]
        exact anchor_keepUpTo w p rest mLinks
      | some v =>
        simp only [hk, hv, Option.isSome_some, and_self, decide_True, if_true]
        simp only [Parser.anchor, hk, if_true, hv]
    · simp only [hk, false_and, decide_False, Bool.false_eq_true, if_false]
      rw [Parser.anchor, Parser.anchor]
      simp only [hk, if_false]
      exact anchor_keepUpTo w p rest mLinks

/-- When the first `href` of a tag parses, the attributes after it are not looked at. -/
theorem anchor_keepUpTo_href (w : World) (p : Parser) :
    ∀ (attrs : List Attribute) (mLinks : List String),
      (∀ a, attrs.find? (fun a => a.Key = "href") = some a → (w.urlParse a.Val).isSome) →
      p.anchor w (keepUpTo (fun a => a.Key = "href") attrs) mLinks = p.anchor w attrs mLinks
  | [], _, _ => rfl
  | a :: rest, mLinks, h => by
    unfold keepUpTo
    by_cases hk : a.Key = "href"
    · obtain ⟨v, hv⟩ := Option.isSome_iff_exists.1 (h a (by simp [List.find?_cons, hk]))
      simp only [hk, decide_True, if_true]
      simp only [Parser.anchor, hk, if_true, hv]
    · simp only [hk, decide_False, Bool.false_eq_true, if_false]
      rw [Parser.anchor, Parser.anchor]
      simp only [hk, if_false]
      exact anchor_keepUpTo_href w p rest mLinks
        (fun x hx => h x (by simpa [List.find?_cons, hk] using hx))

/-- The attribute loop finds nothing in attributes without a `href`. -/
theorem anchor_no_href (w : World) (p : Parser) :
    ∀ (attrs : List Attribute) (mLinks : List String), (∀ b ∈ attrs, b.Key ≠ "href") →
      p.anchor w attrs mLinks = mLinks
  | [], _, _ => rfl
  | a :: rest, mLinks, h => by
    rw [Parser.anchor]
    simp only [h a (List.mem_cons_self _ _), if_false]
    exact anchor_no_href w p rest mLinks (fun x hx => h x (List.mem_cons_of_mem _ hx))

/-- In a tag with at most one `href` the attributes after that `href` are not looked at
to any effect, whatever its value. -/
theorem anchor_keepUpTo_one (w : World) (p : Parser) :
    ∀ (attrs : List Attribute) (mLinks : List String),
      (attrs.filter fun a => a.Key = "href").length ≤ 1 →
      p.anchor w (keepUpTo (fun a => a.Key = "href") attrs) mLinks = p.anchor w attrs mLinks
  | [], _, _ => rfl
  | a :: rest, mLinks, h => by
    unfold keepUpTo
    by_cases hk : a.Key = "href"
    · have hrest : ∀ b ∈ rest, b.Key ≠ "href" := by
        intro b hb hbk
        have hmem : b ∈ rest.filter fun a => a.Key = "href" := by
          simp [List.mem_filter, hb, hbk]
        have hlen : (rest.filter fun a => a.Key = "href").length = 0 := by
          simp only [List.filter_cons, hk, decide_True, if_true, List.length_cons] at h
          omega
        rw [List.length_eq_zero] at hlen
        rw [hlen] at hmem
        exact absurd hmem (List.not_mem_nil b)
      simp only [hk, decide_True, if_true]
      cases hv : w.urlParse a.Val with
      | none =>
        simp only [Parser.anchor, hk, if_true, hv]
        exact (anchor_no_href w p rest mLinks hrest).symm
      | some v => simp only [Parser.anchor, hk, if_true, hv]
    · simp only [hk, decide_False, Bool.false_eq_true, if_false]
      rw [Parser.anchor, Parser.anchor]
      simp only [hk, if_false]
      refine anchor_keepUpTo_one w p rest mLinks ?_
      simpa [List.filter_cons, hk] using h

/-- Cutting the attributes of the anchor tags does not change the links when it does not
change what the attribute loop finds in each tag. -/
theorem tokens_cutAfter (w : World) (p : Parser) (stop : Attribute → Bool) :
    ∀ (body : List Token) (mLinks : List String),
      (∀ t ∈ body, ∀ m, p.anchor w (keepUpTo stop t.Attr) m = p.anchor w t.Attr m) →
      p.tokens w (body.map (Token.cutAfter stop)) mLinks = p.tokens w body mLinks
  | [], _, _ => rfl
  | t :: rest, mLinks, h => by
    have ih := fun m => tokens_cutAfter w p stop rest m
      (fun x hx => h x (List.mem_cons_of_mem _ hx))
    have ht := h t (List.mem_cons_self _ _)
    rw [List.map_cons]
    by_cases hc : t.Typ = .StartTagToken ∧ t.Data = "a"
    · have hcut : Token.cutAfter stop t = { t with Attr := keepUpTo stop t.Attr } := by
        unfold Token.cutAfter
        rw [if_pos hc]
      rw [hcut, Parser.tokens, Parser.tokens]
      simp only [hc.1, hc.2, if_true, ht, ih]
    · have hcut : Token.cutAfter stop t = t := by
        unfold Token.cutAfter
        rw [if_neg hc]
      rw [hcut, Parser.tokens, Parser.tokens]
      cases hty : t.Typ <;> simp only [ih]

/-- C15: for every anchor start tag as the tokenizer returns it, with the key `href` at
most once, link extraction consults only the first `href` of the tag: the links
extracted from a page are the same as if every attribute following the first `href` of
each anchor tag were removed, whatever the value of that `href`.  The same holds for
tags that repeat `href` when the first `href` of each tag parses, and for every tag
whatever it repeats the attributes after the first `href` that `url.Parse` accepts can
be removed. -/
theorem tokens_upToHref (w : World) (p : Parser) :
    (∀ (body : List Token) (mLinks : List String),
      (∀ t ∈ body, (t.Attr.filter fun a => a.Key = "href").length ≤ 1) →
      p.tokens w (body.map Token.upToHref) mLinks = p.tokens w body mLinks)
    ∧ (∀ (body : List Token) (mLinks : List String),
        (∀ t ∈ body, ∀ a, t.Attr.find? (fun a => a.Key = "href") = some a →
          (w.urlParse a.Val).isSome) →
        p.tokens w (body.map Token.upToHref) mLinks = p.tokens w body mLinks)
    ∧ (∀ (body : List Token) (mLinks : List String),
        p.tokens w (body.map (Token.upToParsedHref w)) mLinks = p.tokens w body mLinks) := by
  refine ⟨?_, ?_, ?_⟩
  · intro body mLinks h
    exact tokens_cutAfter w p _ body mLinks
      (fun t ht m => anchor_keepUpTo_one w p t.Attr m (h t ht))
  · intro body mLinks h
    exact tokens_cutAfter w p _ body mLinks
      (fun t ht m => anchor_keepUpTo_href w p t.Attr m (h t ht))
  · intro body mLinks
    exact tokens_cutAfter w p _ body mLinks (fun t _ m => anchor_keepUpTo w p t.Attr m)

/-- C15 on three pages: `hrefThenMore`, whose tags have one `href` each, one of them a
value that `url.Parse` rejects, followed by other attributes; `demoBody`, whose first
`href` values parse; and `variantBody`, which repeats `href` in a tag. -/
theorem tokens_upToHref_witness :
    (∀ t ∈ hrefThenMore, (t.Attr.filter fun a => a.Key = "href").length ≤ 1)
    ∧ queryWorld.urlParse "%zz" = none
    ∧ (NewParser "http" "h").tokens queryWorld (hrefThenMore.map Token.upToHref) []
      = (NewParser "http" "h").tokens queryWorld hrefThenMore []
    ∧ (∀ t ∈ demoBody, ∀ a, t.Attr.find? (fun a => a.Key = "href") = some a →
        (demoWorld.urlParse a.Val).isSome)
    ∧ (NewParser "http" "h").tokens demoWorld (demoBody.map Token.upToHref) []
      = (NewParser "http" "h").tokens demoWorld demoBody []
    ∧ (NewParser "http" "h").tokens queryWorld (variantBody.map (Token.upToParsedHref queryWorld)) []
      = (NewParser "http" "h").tokens queryWorld variantBody [] :=
  have hdemo : ∀ t ∈ demoBody, ∀ a, t.Attr.find? (fun a => a.Key = "href") = some a →
      (demoWorld.urlParse a.Val).isSome := by
    intro t ht a ha
    simp only [demoBody, List.mem_cons, List.mem_singleton, List.not_mem_nil, or_false] at ht
    rcases ht with rfl | rfl | rfl
    · simp at ha
    · simp only [List.find?_cons, decide_True, Option.some.injEq] at ha
      rw [← ha]
      decide
    · simp only [List.find?_cons, decide_True, Option.some.injEq] at ha
      rw [← ha]
      decide
  ⟨by decide, by decide,
    (tokens_upToHref queryWorld (NewParser "http" "h")).1 hrefThenMore [] (by decide),
    hdemo,
    (tokens_upToHref demoWorld (NewParser "http" "h")).2.1 demoBody [] hdemo,
    (tokens_upToHref queryWorld (NewParser "http" "h")).2.2 variantBody []⟩

/-! ## Theorems: the sitemap grows -/

/-- C13, in the world `queryWorld` with maximum depth 2: when the crawl from the seed
has stored `http://h/b` with no links, `parsePage("http://h/a", 1)` follows the redirect
of `/a` to `/b?v=2` and stores that page under the same key, so the links under the key
present before change from none to `http://h/x`; the call of `add` alone does so too. -/
theorem parsePage_rewrites_links :
    (NewParser "http" "h").parse queryWorld "http://h/b" = .ok ⟨"http://h/b", []⟩
    ∧ (NewParser "http" "h").parse queryWorld "http://h/a" = .ok ⟨"http://h/b", ["http://h/x"]⟩
    ∧ (((crawlerAt 2).add ⟨"http://h", ["http://h/b", "http://h/a"]⟩).add
          ⟨"http://h/b", []⟩).sitemap.index "http://h/b" = some []
    ∧ (∃ c', Crawler.parsePage (Parser.parse queryWorld) 2
          (((crawlerAt 2).add ⟨"http://h", ["http://h/b", "http://h/a"]⟩).add ⟨"http://h/b", []⟩)
          "http://h/a" 1 = some c'
        ∧ c'.sitemap.index "http://h/b" = some ["http://h/x"])
    ∧ ((((crawlerAt 2).add ⟨"http://h", ["http://h/b", "http://h/a"]⟩).add
          ⟨"http://h/b", []⟩).add ⟨"http://h/b", ["http://h/x"]⟩).sitemap.index "http://h/b"
        = some ["http://h/x"]
    ∧ (∃ c', Crawler.parsePage (Parser.parse queryWorld) 3 (crawlerAt 2) "http://h" 0 = some c'
        ∧ c'.parsed = [("http://h", 0), ("http://h/b", 1), ("http://h/a", 1)]
        ∧ c'.sitemap.index "http://h/b" = some ["http://h/x"]) :=
  ⟨by rfl, by rfl, by decide, ⟨_, rfl, by decide⟩, by decide, ⟨_, rfl, by decide, by decide⟩⟩

/-- What a call of `parsePage` does to the entries that were there: the links of a key
stay, or are those of a page that one of the calls made in between returned under that
key; and they stay when every page is returned under the address asked for. -/
theorem parsePage_links_kept (parse : Parser → String → Except Error Page) (fuel : Nat) :
    ∀ c l lvl c', Crawler.parsePage parse fuel c l lvl = some c' →
      c.sameConfig c'
      ∧ (∃ new, c'.parsed = c.parsed ++ new ∧ ∀ k L, c.sitemap.index k = some L →
          c'.sitemap.index k = some L ∨ ∃ a lv page, (a, lv) ∈ new
            ∧ parse c.parser a = .ok page ∧ page.Addr = k
            ∧ c'.sitemap.index k = some page.Links)
      ∧ ((∀ a page, parse c.parser a = .ok page → page.Addr = a) →
          ∀ k L, c.sitemap.index k = some L → c'.sitemap.index k = some L) := by
  refine (parsePage_induction parse
    (fun c _ _ c' => c.sameConfig c'
      ∧ (∃ new, c'.parsed = c.parsed ++ new ∧ ∀ k L, c.sitemap.index k = some L →
          c'.sitemap.index k = some L ∨ ∃ a lv page, (a, lv) ∈ new
            ∧ parse c.parser a = .ok page ∧ page.Addr = k
            ∧ c'.sitemap.index k = some page.Links)
      ∧ ((∀ a page, parse c.parser a = .ok page → page.Addr = a) →
          ∀ k L, c.sitemap.index k = some L → c'.sitemap.index k = some L))
    (fun c _ _ c' => c.sameConfig c'
      ∧ (∃ new, c'.parsed = c.parsed ++ new ∧ ∀ k L, c.sitemap.index k = some L →
          c'.sitemap.index k = some L ∨ ∃ a lv page, (a, lv) ∈ new
            ∧ parse c.parser a = .ok page ∧ page.Addr = k
            ∧ c'.sitemap.index k = some page.Links)
      ∧ ((∀ a page, parse c.parser a = .ok page → page.Addr = a) →
          ∀ k L, c.sitemap.index k = some L → c'.sitemap.index k = some L))
    ?_ ?_ ?_ ?_ ?_ ?_ fuel).1
  · intro c l lvl _
    exact ⟨c.sameConfig_refl, ⟨[], by simp, fun k L h => Or.inl h⟩, fun _ k L h => h⟩
  · intro c l lvl err _ _
    exact ⟨(c.sameConfig_step l lvl ⟨"", []⟩).1, ⟨[(l, lvl)], rfl, fun k L h => Or.inl h⟩,
      fun _ k L h => h⟩
  · intro c l lvl page c' hg hp hq
    obtain ⟨hc, ⟨new, hnew, hq1⟩, hq2⟩ := hq
    refine ⟨Crawler.sameConfig_trans (c.sameConfig_step l lvl page).2 hc,
      ⟨(l, lvl) :: new, ?_, ?_⟩, ?_⟩
    · rw [hnew]
      show (c.parsed ++ [(l, lvl)]) ++ new = c.parsed ++ (l, lvl) :: new
      simp
    · intro k L hk
      by_cases hka : k = page.Addr
      · have h1 : ((c.calling l lvl).add page).sitemap.index k = some page.Links := by
          rw [Crawler.index_add, if_pos hka]
        rcases hq1 k page.Links h1 with h2 | ⟨a, lv, pg, hm, hpa, hak, hi⟩
        · exact Or.inr ⟨l, lvl, page, List.mem_cons_self _ _, hp, hka.symm, h2⟩
        · exact Or.inr ⟨a, lv, pg, List.mem_cons_of_mem _ hm, hpa, hak, hi⟩
      · have h1 : ((c.calling l lvl).add page).sitemap.index k = some L := by
          rw [Crawler.index_add, if_neg hka]
          exact hk
        rcases hq1 k L h1 with h2 | ⟨a, lv, pg, hm, hpa, hak, hi⟩
        · exact Or.inl h2
        · exact Or.inr ⟨a, lv, pg, List.mem_cons_of_mem _ hm, hpa, hak, hi⟩
    · intro hsame k L hk
      apply hq2 hsame k L
      have hka : k ≠ page.Addr := by
        intro he
        rw [he, hsame l page hp, ((c.proceeds_iff l lvl).1 hg).2.2] at hk
        exact absurd hk (by simp)
      rw [Crawler.index_add, if_neg hka]
      exact hk
  · intro c lvl
    exact ⟨c.sameConfig_refl, ⟨[], by simp, fun k L h => Or.inl h⟩, fun _ k L h => h⟩
  · intro c link rest lvl c' _ hq
    exact hq
  · intro c link rest lvl c1 c' _ hp hq
    obtain ⟨hc1, ⟨new1, hn1, hp1⟩, hp2⟩ := hp
    obtain ⟨hc2, ⟨new2, hn2, hq1⟩, hq2⟩ := hq
    rw [hc1.2.2.1] at hq1 hq2
    refine ⟨Crawler.sameConfig_trans hc1 hc2,
      ⟨new1 ++ new2, by rw [hn2, hn1, List.append_assoc], ?_⟩,
      fun hsame k L hk => hq2 hsame k L (hp2 hsame k L hk)⟩
    intro k L hk
    rcases hp1 k L hk with h1 | ⟨a, lv, pg, hm, hpa, hak, hi⟩
    · rcases hq1 k L h1 with h2 | ⟨a, lv, pg, hm, hpa, hak, hi⟩
      · exact Or.inl h2
      · exact Or.inr ⟨a, lv, pg, List.mem_append_right _ hm, hpa, hak, hi⟩
    · rcases hq1 k pg.Links hi with h2 | ⟨a2, lv2, pg2, hm2, hpa2, hak2, hi2⟩
      · exact Or.inr ⟨a, lv, pg, List.mem_append_left _ hm, hpa, hak, h2⟩
      · exact Or.inr ⟨a2, lv2, pg2, List.mem_append_right _ hm2, hpa2, hak2, hi2⟩

/-- C13, amended: during one crawl every call of `add` and every call of `parsePage`
keeps every key that was present; `add` leaves the links under every key other than the
address of the added page as they were; the links under a key present before a call of
`parsePage` stay or become those of a page that one of its parser calls returned under
that key, and they stay when every page is returned under the address asked for.  With a
positive maximum depth the call returns. -/
theorem sitemap_keys_kept (parse : Parser → String → Except Error Page) (c : Crawler)
    (l : String) (lvl : Int) (fuel : Nat) :
    (∀ (page : Page) (k : CanonicalURL), c.known k = true → (c.add page).known k = true)
    ∧ (∀ (page : Page) (k : CanonicalURL), k ≠ page.Addr →
        (c.add page).sitemap.index k = c.sitemap.index k)
    ∧ (∀ c', Crawler.parsePage parse fuel c l lvl = some c' →
        (∀ k, c.known k = true → c'.known k = true)
        ∧ (∃ new, c'.parsed = c.parsed ++ new ∧ ∀ k L, c.sitemap.index k = some L →
            c'.sitemap.index k = some L ∨ ∃ a lv page, (a, lv) ∈ new
              ∧ parse c.parser a = .ok page ∧ page.Addr = k
              ∧ c'.sitemap.index k = some page.Links)
        ∧ ((∀ a page, parse c.parser a = .ok page → page.Addr = a) →
            ∀ k L, c.sitemap.index k = some L → c'.sitemap.index k = some L))
    ∧ (0 < c.maxDepth → (c.maxDepth - lvl).toNat < fuel →
        ∃ c', Crawler.parsePage parse fuel c l lvl = some c') := by
  refine ⟨?_, ?_, ?_, fun hd hf => parsePage_terminates parse c.maxDepth hd fuel c l lvl rfl hf⟩
  · intro page k hk
    exact (Crawler.known_add c page k).2 (Or.inr hk)
  · intro page k hk
    rw [Crawler.index_add, if_neg hk]
  · intro c' hc'
    obtain ⟨_, h1, h2⟩ := parsePage_links_kept parse fuel c l lvl c' hc'
    exact ⟨((parsePage_basic parse fuel).1 c l lvl c' hc').2.1, h1, h2⟩

/-- C13, amended, on the four-page site with maximum depth 3, from a sitemap that holds
`http://h/b` already: the crawl returns and the entry is as it was. -/
theorem sitemap_keys_kept_witness :
    (∀ a page, diamondSite ((crawlerAt 3).add ⟨"http://h/b", ["http://h/old"]⟩).parser a
        = .ok page → page.Addr = a)
    ∧ 0 < ((crawlerAt 3).add ⟨"http://h/b", ["http://h/old"]⟩).maxDepth
    ∧ (((crawlerAt 3).add ⟨"http://h/b", ["http://h/old"]⟩).maxDepth - 0).toNat < 4
    ∧ ∃ c', Crawler.parsePage diamondSite 4
          ((crawlerAt 3).add ⟨"http://h/b", ["http://h/old"]⟩) "http://h" 0 = some c'
        ∧ ∀ k L, ((crawlerAt 3).add ⟨"http://h/b", ["http://h/old"]⟩).sitemap.index k = some L →
            c'.sitemap.index k = some L := by
  have hsame : ∀ a page,
      diamondSite ((crawlerAt 3).add ⟨"http://h/b", ["http://h/old"]⟩).parser a = .ok page →
      page.Addr = a := by
    intro a page h
    unfold diamondSite at h
    split_ifs at h <;> rw [← Except.ok.inj h]
  have h := sitemap_keys_kept diamondSite
    ((crawlerAt 3).add ⟨"http://h/b", ["http://h/old"]⟩) "http://h" 0 4
  obtain ⟨c', hc'⟩ := h.2.2.2 (by decide) (by decide)
  exact ⟨hsame, by decide, by decide, c', hc', (h.2.2.1 c' hc').2.2 hsame⟩

/-! ## Theorems: canonical keys -/

/-- The key the request loop ends with is the key it started with or the rendering of
the normalised target of a redirect. -/
theorem clientDo_key (w : World) (p : Parser) :
    ∀ (fuel : Nat) (req : URL) (via : Nat) (key : CanonicalURL) (body : List Token)
      (key' : CanonicalURL), Parser.clientDo w p fuel req via key = some (.ok (body, key')) →
      key' = key ∨ ∃ r t, w.roundTrip r = .redirect t ∧ key' = (p.normalise t).String w.esc
  | 0, _, _, _, _, _, h => by simp [Parser.clientDo] at h
  | fuel + 1, req, via, key, body, key', h => by
    rw [Parser.clientDo] at h
    cases hrt : w.roundTrip req with
    | failure => simp [hrt] at h
    | page b =>
      simp only [hrt, Option.some.injEq, Except.ok.injEq, Prod.mk.injEq] at h
      exact Or.inl h.2.symm
    | redirect t =>
      simp only [hrt] at h
      split_ifs at h with h1 h2
      · simp at h
      · simp at h
      · rcases clientDo_key w p fuel t (via + 1) _ body key' h with h3 | h3
        · exact Or.inr ⟨req, t, hrt, h3⟩
        · exact Or.inr h3

/-- Every link the attribute loop adds is the rendering of the normal form of a URL that
`url.Parse` returned. -/
theorem anchor_mem_parsed (w : World) (p : Parser) :
    ∀ (attrs : List Attribute) (mLinks : List String) (l : String),
      l ∈ p.anchor w attrs mLinks →
      l ∈ mLinks ∨ ∃ s v, w.urlParse s = some v ∧ l = (p.normalise v).String w.esc
  | [], mLinks, l, h => Or.inl h
  | a :: rest, mLinks, l, h => by
    unfold Parser.anchor at h
    by_cases hk : a.Key = "href"
    · simp only [hk, if_true] at h
      cases hv : w.urlParse a.Val with
      | none =>
        simp only [hv] at h
        exact anchor_mem_parsed w p rest mLinks l h
      | some v =>
        simp only [hv] at h
        split_ifs at h with hf hm
        · exact Or.inl h
        · rcases List.mem_append.1 h with h1 | h1
          · exact Or.inl h1
          · exact Or.inr ⟨a.Val, v, hv, List.mem_singleton.1 h1⟩
        · exact Or.inl h
    · simp only [hk, if_false] at h
      exact anchor_mem_parsed w p rest mLinks l h

/-- The same for the tokenizer loop. -/
theorem tokens_mem_parsed (w : World) (p : Parser) :
    ∀ (body : List Token) (mLinks : List String) (l : String),
      l ∈ p.tokens w body mLinks →
      l ∈ mLinks ∨ ∃ s v, w.urlParse s = some v ∧ l = (p.normalise v).String w.esc
  | [], mLinks, l, h => Or.inl h
  | t :: rest, mLinks, l, h => by
    unfold Parser.tokens at h
    cases ht : t.Typ <;> simp only [ht] at h
    case ErrorToken => exact Or.inl h
    case StartTagToken =>
      split_ifs at h
      · rcases tokens_mem_parsed w p rest _ l h with h1 | h1
        · exact anchor_mem_parsed w p t.Attr mLinks l h1
        · exact Or.inr h1
      · exact tokens_mem_parsed w p rest mLinks l h
    all_goals exact tokens_mem_parsed w p rest mLinks l h

/-- From an address that is the rendering of a normalised URL, `parse` returns an `Addr`
and links that are renderings of normalised URLs. -/
theorem parse_rendered (w : World) (p : Parser) (start : URL) (u : String) (page : Page)
    (hu : w.rendered p start u) (h : p.parse w u = .ok page) :
    w.rendered p start page.Addr ∧ ∀ l ∈ page.Links, w.rendered p start l := by
  unfold Parser.parse at h
  cases hpu : w.urlParse u with
  | none => simp [hpu] at h
  | some req =>
    simp only [hpu] at h
    cases hr : Parser.clientDo w p 10 req 0 u with
    | none => simp [hr] at h
    | some r =>
      cases r with
      | error err => simp [hr] at h
      | ok bk =>
        obtain ⟨body, key⟩ := bk
        simp only [hr, Except.ok.injEq] at h
        rw [← h]
        refine ⟨?_, ?_⟩
        · rcases clientDo_key w p 10 req 0 u body key hr with h1 | ⟨r, t, hrt, h1⟩
          · exact h1 ▸ hu
          · exact ⟨t, Or.inr (Or.inr ⟨r, hrt⟩), h1⟩
        · intro l hl
          have hl2 : l ∈ p.tokens w body [] := (w.rangeOrder_perm _).mem_iff.1 hl
          rcases tokens_mem_parsed w p body [] l hl2 with h1 | ⟨s, v, hv, h1⟩
          · exact absurd h1 (List.not_mem_nil l)
          · exact ⟨v, Or.inr (Or.inl ⟨s, hv⟩), h1⟩

theorem Crawler.known_of_mem_keys (c : Crawler) (k : CanonicalURL) (h : k ∈ c.sitemap.keys) :
    c.known k = true := by
  obtain ⟨e, he, hk⟩ := List.mem_map.1 h
  unfold Crawler.known Sitemap.index
  rw [Option.isSome_map', List.find?_isSome]
  exact ⟨e, he, by simpa using hk⟩

/-- A crawl from the rendering of a normalised URL, on a sitemap whose keys are
renderings of normalised URLs, ends with a sitemap whose keys are such renderings. -/
theorem parsePage_rendered (w : World) (start : URL) (fuel : Nat) :
    ∀ c l lvl c', Crawler.parsePage (Parser.parse w) fuel c l lvl = some c' →
      c.sameConfig c' ∧ (w.rendered c.parser start l →
        (∀ k, c.known k = true → w.rendered c.parser start k) →
        ∀ k, c'.known k = true → w.rendered c.parser start k) := by
  refine (parsePage_induction (Parser.parse w)
    (fun c l _ c' => c.sameConfig c' ∧ (w.rendered c.parser start l →
        (∀ k, c.known k = true → w.rendered c.parser start k) →
        ∀ k, c'.known k = true → w.rendered c.parser start k))
    (fun c links _ c' => c.sameConfig c' ∧ (
        (∀ l ∈ links, w.rendered c.parser start l) →
        (∀ k, c.known k = true → w.rendered c.parser start k) →
        ∀ k, c'.known k = true → w.rendered c.parser start k))
    ?_ ?_ ?_ ?_ ?_ ?_ fuel).1
  · intro c l lvl _
    exact ⟨c.sameConfig_refl, fun _ h => h⟩
  · intro c l lvl err _ _
    exact ⟨(c.sameConfig_step l lvl ⟨"", []⟩).1, fun _ h => h⟩
  · intro c l lvl page c' _ hp hq
    obtain ⟨hc, hq⟩ := hq
    refine ⟨Crawler.sameConfig_trans (c.sameConfig_step l lvl page).2 hc, ?_⟩
    intro hl hkeys
    obtain ⟨haddr, hlinks⟩ := parse_rendered w c.parser start l page hl hp
    refine hq hlinks ?_
    intro k hk
    rcases (Crawler.known_add _ page k).1 hk with h1 | h1
    · exact h1 ▸ haddr
    · exact hkeys k h1
  · intro c lvl
    exact ⟨c.sameConfig_refl, fun _ h => h⟩
  · intro c link rest lvl c' _ hq
    exact ⟨hq.1, fun hl hkeys =>
      hq.2 (fun x hx => hl x (List.mem_cons_of_mem _ hx)) hkeys⟩
  · intro c link rest lvl c1 c' _ hp hq
    obtain ⟨hc1, hp⟩ := hp
    obtain ⟨hc2, hq⟩ := hq
    rw [hc1.2.2.1] at hq
    exact ⟨Crawler.sameConfig_trans hc1 hc2, fun hl hkeys =>
      hq (fun x hx => hl x (List.mem_cons_of_mem _ hx))
        (hp (hl link (List.mem_cons_self _ _)) hkeys)⟩

/-- Every key of the sitemap of a crawl from the seed of a crawler built by `NewCrawler`
is the rendering of a URL that `normalise` returned: for the seed URL, for an `href`
value that `url.Parse` accepted, or for a redirect target. -/
theorem crawl_keys_rendered (w : World) (start : URL) (depth : Int) (fuel : Nat) (c' : Crawler)
    (h : Crawler.parsePage (Parser.parse w) fuel (NewCrawler w.esc start depth)
      (NewCrawler w.esc start depth).startURL 0 = some c') :
    ∀ k ∈ c'.sitemap.keys, w.rendered (NewParser start.Scheme start.Host) start k := by
  intro k hk
  refine (parsePage_rendered w start fuel _ _ 0 c' h).2 ⟨start, Or.inl rfl, rfl⟩ ?_ k
    (c'.known_of_mem_keys k hk)
  intro k0 hk0
  simp [Crawler.known, NewCrawler, Sitemap.index] at hk0

/-- C12: in the world `forcedQueryWorld` the crawl with maximum depth 2 from the seed
`http://h`, which `url.Parse` returned, ends with the two keys `http://h/foo?` and
`http://h/foo`.  Each of them is canonical, normalising it again returns the same
string; the URLs that `url.Parse` reads from them differ in `ForceQuery` only, which
`normalise` leaves as it is, and the server answers both with the same page: two keys
of the sitemap are different spellings of one page. -/
theorem crawl_two_keys_one_page :
    forcedQueryWorld.urlParse "http://h" = some { Scheme := "http", Host := "h" }
    ∧ (∃ c', Crawler.parsePage (Parser.parse forcedQueryWorld) 3
          (NewCrawler forcedQueryWorld.esc { Scheme := "http", Host := "h" } 2)
          (NewCrawler forcedQueryWorld.esc { Scheme := "http", Host := "h" } 2).startURL 0
            = some c'
        ∧ c'.sitemap.keys = ["http://h/foo?", "http://h/foo", "http://h"])
    ∧ forcedQueryWorld.canonical (NewParser "http" "h") "http://h/foo?"
    ∧ forcedQueryWorld.canonical (NewParser "http" "h") "http://h/foo"
    ∧ forcedQueryWorld.urlParse "http://h/foo?"
        = some { Scheme := "http", Host := "h", Path := "/foo", ForceQuery := true }
    ∧ forcedQueryWorld.urlParse "http://h/foo"
        = some { Scheme := "http", Host := "h", Path := "/foo" }
    ∧ (NewParser "http" "h").normalise
          { Scheme := "http", Host := "h", Path := "/foo", ForceQuery := true }
        = { Scheme := "http", Host := "h", Path := "/foo", ForceQuery := true }
    ∧ forcedQueryWorld.roundTrip
          { Scheme := "http", Host := "h", Path := "/foo", ForceQuery := true }
        = forcedQueryWorld.roundTrip { Scheme := "http", Host := "h", Path := "/foo" } := by
  refine ⟨by decide, ⟨_, rfl, by decide⟩, ⟨_, rfl, by decide⟩, ⟨_, rfl, by decide⟩,
    by decide, by decide, by decide, rfl⟩

/-- For the seed URL of scheme `HTTP` and host `h`, built by hand, `NewCrawler` keeps
the scheme as it is: the crawl stores the page under `HTTP://h`, and `url.Parse` reads
that key with the scheme `http`, so that normalising the key again renders `http://h`:
the key is not canonical. -/
theorem crawl_key_not_canonical :
    (NewCrawler shoutWorld.esc { Scheme := "HTTP", Host := "h" } 1).startURL = "HTTP://h"
    ∧ (∃ c', Crawler.parsePage (Parser.parse shoutWorld) 2
          (NewCrawler shoutWorld.esc { Scheme := "HTTP", Host := "h" } 1) "HTTP://h" 0 = some c'
        ∧ c'.sitemap.keys = ["HTTP://h"])
    ∧ shoutWorld.urlParse "HTTP://h" = some { Scheme := "http", Host := "h" }
    ∧ ((NewParser "HTTP" "h").normalise { Scheme := "http", Host := "h" }).String shoutWorld.esc
        = "http://h"
    ∧ ¬ shoutWorld.canonical (NewParser "HTTP" "h") "HTTP://h" := by
  refine ⟨by decide, ⟨_, rfl, by decide⟩, by decide, by decide, ?_⟩
  rintro ⟨v, hv, hr⟩
  have h2 : shoutWorld.urlParse "HTTP://h" = some { Scheme := "http", Host := "h" } := by
    decide
  rw [h2] at hv
  rw [← Option.some.inj hv] at hr
  revert hr
  decide

end crawler
